import Mathlib

/-! # count-queries: partitioning and reduction of record counts

A shallow embedding of `count_queries.go` and of `countQueries` from `main.go`.

* A Go `map[string]int` is an association list with pairwise distinct keys
  (`AList`).  Go leaves the iteration order of a map unspecified; the embedding
  iterates in list order, and every statement about a report is made up to the
  order of its lines.
* Go's `int` is 64 bits wide.  The counters of `dataToParts` and the `uint64`
  part counter grow by one per input line and are unbounded integers here.  The
  addition of `reduceSerializedParts` (line 95) adds counts read from storage,
  which may be any 64-bit values: `reduceSerializedParts` is the function with
  exact addition, `reduceSerializedParts64` is the same function with the
  addition wrapping at 64 bits, and the sums reported are determined for the
  latter.
* Everything outside the two core functions (the scanner, the `gob` codec, the
  files behind the storage handles, the output writer) is a function on an
  explicit world state `σ` that returns an optional error together with the new
  world, so that the world reached on an error return is still observable.
-/

namespace CountQueries

/-! ## Data model -/

/-- Go `error` values. -/
abbrev Error := String

/-- A part: the Go type `map[string]int`. -/
abbrev Part := AList (fun _ : String => Int)

/-- The map read `m[k]`: the zero value when the key is absent. -/
def Part.get (m : Part) (k : String) : Int :=
  (m.lookup k).getD 0

/-- The update `m[k] += d` with exact addition. -/
def Part.add (m : Part) (k : String) (d : Int) : Part :=
  m.insert k (m.get k + d)

/-- The statement `delete(m, k)`. -/
def Part.delete (m : Part) (k : String) : Part :=
  m.erase k

/-- The value `len(m)`: the number of distinct keys. -/
def Part.len (m : Part) : Nat :=
  m.keys.length

/-- What `bufio.Scanner` yields on an `io.Reader`: the lines for which `Scan`
returned true, then the value of `scanner.Err()` (`none` on a clean end of input). -/
structure Reader where
  /-- The tokens returned by `scanner.Text()`, in order. -/
  lines : List String
  /-- The value of `scanner.Err()` once `Scan` has returned false. -/
  err : Option Error

/-- The type `partSavingFunc`: `save(part, partNumber)` acting on the world. -/
abbrev partSavingFunc (σ : Type) := Part → Nat → σ → Option Error × σ

/-- The interface `ReadWriteClearCloser`.  Reading and writing only ever happen
through `deserializeMap` and `serializeMap`, so the handle offers the two
composites of byte transfer and `gob` coding directly. -/
structure ReadWriteClearCloser (σ : Type) where
  /-- The effect of `gob.NewDecoder(h).Decode(&result)`. -/
  decode : σ → Except Error Part × σ
  /-- The effect of `gob.NewEncoder(h).Encode(part)`. -/
  encode : Part → σ → Option Error × σ
  /-- The method `Clear`. -/
  Clear : σ → Option Error × σ
  /-- The method `Close`. -/
  Close : σ → Option Error × σ

/-- The type `serializedPartReadWritingFunc`: a factory of storage handles. -/
abbrev serializedPartReadWritingFunc (σ : Type) :=
  σ → Except Error (ReadWriteClearCloser σ) × σ

/-- An `io.Writer` receiving text: one call of `Write`. -/
abbrev Writer (σ : Type) := String → σ → Option Error × σ

/-! ## `dataToParts` -/

/-- The scanning loop of `dataToParts` (lines 33-50), started with the current
part and the current part counter.  It returns the part still unflushed, the part
counter and the error of a failed `save`. -/
def dataToParts.loop {σ : Type} (limitPerPart : Int) (save : partSavingFunc σ) :
    List String → Part → Nat → σ → (Part × Nat × Option Error) × σ
  | [], part, partsCount, w => ((part, partsCount, none), w)
  | text :: rest, part, partsCount, w =>
    let part := if limitPerPart > 0 then part.add text 1 else part
    if (part.len : Int) ≥ limitPerPart then
      let partsCount := partsCount + 1
      match save part partsCount w with
      | (some err, w) => ((part, partsCount, some err), w)
      | (none, w) => dataToParts.loop limitPerPart save rest ∅ partsCount w
    else
      dataToParts.loop limitPerPart save rest part partsCount w

/-- The function `dataToParts`: the pair `(partsCount, err)` and the new world. -/
def dataToParts {σ : Type} (r : Reader) (limitPerPart : Int) (save : partSavingFunc σ)
    (w : σ) : (Nat × Option Error) × σ :=
  match dataToParts.loop limitPerPart save r.lines ∅ 0 w with
  | ((_, partsCount, some err), w) => ((partsCount, some err), w)
  | ((part, partsCount, none), w) =>
    match r.err with
    | some err => ((partsCount, some err), w)
    | none =>
      if part.len > 0 then
        let partsCount := partsCount + 1
        match save part partsCount w with
        | (err, w) => ((partsCount, err), w)
      else
        ((partsCount, none), w)

/-! ## `reduceSerializedParts` -/

/-- The function `serializeMap` on a storage handle. -/
def serializeMap {σ : Type} (part : Part) (result : ReadWriteClearCloser σ) :
    σ → Option Error × σ :=
  result.encode part

/-- The function `deserializeMap` on a storage handle. -/
def deserializeMap {σ : Type} (r : ReadWriteClearCloser σ) : σ → Except Error Part × σ :=
  r.decode

/-- The line `fmt.Sprintf("%s\t%d\n", k, v)`. -/
def tabLine (k : String) (v : Int) : String :=
  k ++ "\t" ++ toString v ++ "\n"

/-- The loop of `writeMapTabDelim` over the entries still to be written. -/
def writeMapTabDelim.loop {σ : Type} (result : Writer σ) :
    List (Sigma fun _ : String => Int) → σ → Option Error × σ
  | [], w => (none, w)
  | ⟨k, v⟩ :: rest, w =>
    match result (tabLine k v) w with
    | (some err, w) => (some err, w)
    | (none, w) => writeMapTabDelim.loop result rest w

/-- The function `writeMapTabDelim`. -/
def writeMapTabDelim {σ : Type} (m : Part) (result : Writer σ) : σ → Option Error × σ :=
  writeMapTabDelim.loop result m.entries

/-- The loop `for k := range resultingPart` (lines 94-98) over the keys still to
be visited: the pair of `resultingPart` and `otherPart` after the loop. -/
def reduceSerializedParts.absorb : List String → Part → Part → Part × Part
  | [], resultingPart, otherPart => (resultingPart, otherPart)
  | k :: ks, resultingPart, otherPart =>
    reduceSerializedParts.absorb ks (resultingPart.add k (otherPart.get k)) (otherPart.delete k)

/-- The body of the inner loop (lines 85-108): fold one other part into
`resultingPart` and store what is left of the other part. -/
def reduceSerializedParts.foldPart {σ : Type} (other : serializedPartReadWritingFunc σ)
    (resultingPart : Part) (w : σ) : Except Error Part × σ :=
  match other w with
  | (.error err, w) => (.error err, w)
  | (.ok otherPartRWC, w) =>
    match deserializeMap otherPartRWC w with
    | (.error err, w) => (.error err, (otherPartRWC.Close w).2)
    | (.ok otherPart, w) =>
      match reduceSerializedParts.absorb resultingPart.keys resultingPart otherPart with
      | (resultingPart, otherPart) =>
        match otherPartRWC.Clear w with
        | (some err, w) => (.error err, w)
        | (none, w) =>
          match serializeMap otherPart otherPartRWC w with
          | (err, w) =>
            match err, (otherPartRWC.Close w).2 with
            | some err, w => (.error err, w)
            | none, w => (.ok resultingPart, w)

/-- The inner loop `for o := i + 1; o < len(parts); o++` over the parts after
part `i`. -/
def reduceSerializedParts.inner {σ : Type} :
    List (serializedPartReadWritingFunc σ) → Part → σ → Except Error Part × σ
  | [], resultingPart, w => (.ok resultingPart, w)
  | other :: rest, resultingPart, w =>
    match reduceSerializedParts.foldPart other resultingPart w with
    | (.error err, w) => (.error err, w)
    | (.ok resultingPart, w) => reduceSerializedParts.inner rest resultingPart w

/-- The function `reduceSerializedParts`: the outer loop takes the head of the
list as part `i` and the tail as the parts `i + 1 ..`. -/
def reduceSerializedParts {σ : Type} :
    List (serializedPartReadWritingFunc σ) → Writer σ → σ → Option Error × σ
  | [], _, w => (none, w)
  | part :: rest, result, w =>
    match part w with
    | (.error err, w) => (some err, w)
    | (.ok resultingPartRWC, w) =>
      match deserializeMap resultingPartRWC w with
      | (.error err, w) => (some err, w)
      | (.ok resultingPart, w) =>
        match resultingPartRWC.Close w with
        | (some err, w) => (some err, w)
        | (none, w) =>
          match reduceSerializedParts.inner rest resultingPart w with
          | (.error err, w) => (some err, w)
          | (.ok resultingPart, w) =>
            match writeMapTabDelim resultingPart result w with
            | (some err, w) => (some err, w)
            | (none, w) => reduceSerializedParts rest result w

/-! ## `countQueries` -/

/-- The temporary directory of `countQueries`: the saving function returned by
`tmpFilePartSerializedSavingFactory` and, for each part number, the factory
returned by `tmpFilePartSerializedReadWritingFactory`. -/
structure TmpDir (σ : Type) where
  /-- The `partSavingFunc` writing `part<n>.bin`. -/
  save : partSavingFunc σ
  /-- The handle factory of `part<n>.bin`. -/
  readWriting : Nat → serializedPartReadWritingFunc σ

/-- The function `countQueries`, with the outcome of each call into the operating
system as a parameter: `os.Open` of the input (and what scanning it yields), the
creation of the temporary directory, and `os.Create` of the output.  The deferred
clean-up and the profiling hook are left out.  The error of `dataToParts` is
assigned to `err` and overwritten by the result of `os.Create` before it is read. -/
def countQueries {σ : Type} (inputFile : Except Error Reader) (tmp : Except Error (TmpDir σ))
    (outputFile : Except Error (Writer σ)) (limit : Int) (w : σ) : Option Error × σ :=
  match inputFile with
  | .error err => (some err, w)
  | .ok inputFile =>
    match tmp with
    | .error err => (some err, w)
    | .ok tmp =>
      match dataToParts inputFile limit tmp.save w with
      | ((partsCount, _), w) =>
        let partsRW := (List.range partsCount).map fun i => tmp.readWriting (i + 1)
        match outputFile with
        | .error err => (some err, w)
        | .ok outputFile => reduceSerializedParts partsRW outputFile w

/-! ## Faithful storage -/

/-- A world in which storage is faithful: every part file holds the map last
written to it (`none` when it is absent or has been cleared), and the output
holds the lines written so far. -/
structure Disk where
  /-- The content of `part<n>.bin`. -/
  files : Nat → Option Part
  /-- The calls of `Write` on the output, in order. -/
  out : List String

/-- A handle on part file `n`: the `fileWrapper` of `main.go` when no operation
fails.  Decoding an empty file is the `gob` end-of-input error. -/
def Disk.handle (n : Nat) : ReadWriteClearCloser Disk where
  decode w :=
    match w.files n with
    | some part => (.ok part, w)
    | none => (.error "EOF", w)
  encode part w := (none, { w with files := Function.update w.files n (some part) })
  Clear w := (none, { w with files := Function.update w.files n none })
  Close w := (none, w)

/-- The factory of `tmpFilePartSerializedReadWritingFactory` for part file `n`. -/
def Disk.readWriting (n : Nat) : serializedPartReadWritingFunc Disk :=
  fun w => (.ok (Disk.handle n), w)

/-- The saving function of `tmpFilePartSerializedSavingFactory`. -/
def Disk.save : partSavingFunc Disk :=
  fun part partNum w => (none, { w with files := Function.update w.files partNum (some part) })

/-- The output file as a writer that never fails. -/
def Disk.write : Writer Disk :=
  fun line w => (none, { w with out := w.out ++ [line] })

/-- The temporary directory on a faithful disk. -/
def Disk.tmpDir : TmpDir Disk :=
  ⟨Disk.save, Disk.readWriting⟩

/-- The disk with no part file and nothing written. -/
def Disk.blank : Disk :=
  ⟨fun _ => none, []⟩

/-- The disk on which part file `i` holds the `i`-th part of the list. -/
def Disk.ofParts (parts : List Part) : Disk :=
  ⟨fun i => parts[i]?, []⟩

/-- The factories of the part files `0 .. n - 1`. -/
def Disk.factories (n : Nat) : List (serializedPartReadWritingFunc Disk) :=
  (List.range n).map Disk.readWriting

/-- The entry of record `r` in part file `n`: its count, or `none` when the
record is not a key of the part (or the file holds no part). -/
def Disk.lookup (w : Disk) (n : Nat) (r : String) : Option Int :=
  (w.files n).bind fun part => part.lookup r

/-- The saving function of the tests (`slicePartSavingFactory`), which also
records the part number: the world is the list of calls of `save`. -/
def recordSave : partSavingFunc (List (Part × Nat)) :=
  fun part partNum calls => (none, calls ++ [(part, partNum)])

/-- The single-pass frequency count of a sequence of lines. -/
def frequencyCount (lines : List String) : Part :=
  lines.foldl (fun m text => m.add text 1) ∅

/-- The map literal with the given entries, built by successive assignment. -/
def Part.ofList (kvs : List (String × Int)) : Part :=
  kvs.foldl (fun m kv => m.insert kv.1 kv.2) ∅

/-! ## Auxiliary descriptions used in the proofs -/

/-- The parts flushed by the scanning loop, in order, and the part left
unflushed at the end of the input: what `dataToParts.loop` hands to a `save`
that never fails. -/
def dataToParts.flushed (limitPerPart : Int) : List String → Part → List Part × Part
  | [], part => ([], part)
  | text :: rest, part =>
    let part := if limitPerPart > 0 then part.add text 1 else part
    if (part.len : Int) ≥ limitPerPart then
      (part :: (dataToParts.flushed limitPerPart rest ∅).1,
        (dataToParts.flushed limitPerPart rest ∅).2)
    else
      dataToParts.flushed limitPerPart rest part

/-- The world after `save` has been called on the given parts with the part
numbers following `partsCount`. -/
def dataToParts.saved {σ : Type} (save : partSavingFunc σ) : List Part → Nat → σ → σ
  | [], _, w => w
  | part :: rest, partsCount, w =>
    dataToParts.saved save rest (partsCount + 1) (save part (partsCount + 1) w).2

/-- All parts flushed by `dataToParts` on a cleanly ending input: those of the
scanning loop, then the last part when it is not empty. -/
def dataToParts.parts (limitPerPart : Int) (lines : List String) : List Part :=
  (dataToParts.flushed limitPerPart lines ∅).1 ++
    (if (dataToParts.flushed limitPerPart lines ∅).2.len > 0 then
      [(dataToParts.flushed limitPerPart lines ∅).2] else [])

/-! ## A `save` that fails -/

/-- The world of a `save` that may fail: every call made, in order, and the
calls that succeeded. -/
structure SaveLog where
  /-- All calls of `save`, with the part and the part number passed. -/
  calls : List (Part × Nat)
  /-- The calls that returned no error: the parts that are stored. -/
  saved : List (Part × Nat)

/-- A `partSavingFunc` whose `k`-th invocation returns the error `e` and stores
nothing; every other invocation stores the part and returns no error. -/
def failingSave (k : Nat) (e : Error) : partSavingFunc SaveLog :=
  fun part partNum w =>
    if w.calls.length + 1 = k then
      (some e, ⟨w.calls ++ [(part, partNum)], w.saved⟩)
    else
      (none, ⟨w.calls ++ [(part, partNum)], w.saved ++ [(part, partNum)]⟩)

/-! ## Storage that may fail, with a trace of its operations -/

/-- The operations `reduceSerializedParts` performs on the outside world: the
call of a part factory, the four uses of a handle, and `Write` on the output. -/
inductive Op where
  | acquire
  | decode
  | clear
  | encode
  | close
  | write
  deriving DecidableEq

/-- One operation performed: its kind, the part file concerned (0 for the
output) and the error it returned, if any. -/
structure Event where
  /-- The kind of operation. -/
  op : Op
  /-- The number of the part file. -/
  part : Nat
  /-- The error returned by the operation. -/
  err : Option Error
  deriving DecidableEq

/-- A disk together with the trace of all operations performed on it so far. -/
structure Traced where
  /-- The part files and the output. -/
  disk : Disk
  /-- The operations performed, oldest first. -/
  log : List Event

/-- One operation on a traced disk under the failure schedule `fail`: the
operation performed when `t` operations have been logged returns the error
`fail t`, if any, and then leaves the disk unchanged; otherwise it acts on the
disk.  Every operation is logged with its outcome. -/
def Traced.step (fail : Nat → Option Error) (op : Op) (n : Nat) (act : Disk → Disk)
    (w : Traced) : Option Error × Traced :=
  match fail w.log.length with
  | some e => (some e, ⟨w.disk, w.log ++ [⟨op, n, some e⟩]⟩)
  | none => (none, ⟨act w.disk, w.log ++ [⟨op, n, none⟩]⟩)

/-- A handle on part file `n` of a traced disk.  Decoding fails on schedule, or
with the end-of-input error when the file holds no part. -/
def Traced.handle (fail : Nat → Option Error) (n : Nat) : ReadWriteClearCloser Traced where
  decode w :=
    match fail w.log.length with
    | some e => (.error e, ⟨w.disk, w.log ++ [⟨.decode, n, some e⟩]⟩)
    | none =>
      match w.disk.files n with
      | some part => (.ok part, ⟨w.disk, w.log ++ [⟨.decode, n, none⟩]⟩)
      | none => (.error "EOF", ⟨w.disk, w.log ++ [⟨.decode, n, some "EOF"⟩]⟩)
  encode part := Traced.step fail .encode n fun d =>
    ⟨Function.update d.files n (some part), d.out⟩
  Clear := Traced.step fail .clear n fun d => ⟨Function.update d.files n none, d.out⟩
  Close := Traced.step fail .close n id

/-- The factory of part file `n` on a traced disk: the call may fail on schedule. -/
def Traced.readWriting (fail : Nat → Option Error) (n : Nat) :
    serializedPartReadWritingFunc Traced :=
  fun w =>
    match fail w.log.length with
    | some e => (.error e, ⟨w.disk, w.log ++ [⟨.acquire, n, some e⟩]⟩)
    | none => (.ok (Traced.handle fail n), ⟨w.disk, w.log ++ [⟨.acquire, n, none⟩]⟩)

/-- The output of a traced disk as a writer. -/
def Traced.write (fail : Nat → Option Error) : Writer Traced :=
  fun line => Traced.step fail .write 0 fun d => ⟨d.files, d.out ++ [line]⟩

/-- The change in the number of open handles made by an operation: a factory
call that succeeds opens one, a call of `Close` closes one (whatever it returns). -/
def Event.opens (ev : Event) : Int :=
  match ev.op, ev.err with
  | .acquire, none => 1
  | .close, _ => -1
  | _, _ => 0

/-- The number of handles, among those of the selected part files, that are open
after the operations of a trace. -/
def openCount (sel : Nat → Bool) (log : List Event) : Int :=
  (log.map fun ev => if sel ev.part then ev.opens else 0).sum

/-- The number of open handles after the operations of a trace. -/
def openHandles (log : List Event) : Int :=
  openCount (fun _ => true) log

/-- The number of open handles on part file `n` after the operations of a trace. -/
def openHandlesOf (n : Nat) (log : List Event) : Int :=
  openCount (fun m => m == n) log

/-- An operation whose failure the reduction must not survive: a factory call,
a decoding, a `Clear` or an encoding that returned an error. -/
def Event.aborting (ev : Event) : Prop :=
  (ev.op = .acquire ∨ ev.op = .decode ∨ ev.op = .clear ∨ ev.op = .encode) ∧ ev.err ≠ none

/-- A stretch of trace without a failed factory call, decoding, `Clear` or
encoding. -/
def Clean (seg : List Event) : Prop :=
  ∀ ev ∈ seg, ¬ ev.aborting

/-- A stretch of trace in which one factory call, decoding, `Clear` or encoding
fails with `e`, none fails before it, and only calls of `Close` follow it. -/
def Aborted (seg : List Event) (e : Error) : Prop :=
  ∃ pre ev post, seg = pre ++ ev :: post ∧ Clean pre ∧ ev.aborting ∧ ev.err = some e ∧
    ∀ ev' ∈ post, ev'.op = .close

/-- At every instant of a stretch of trace the selected handles opened in it
number zero or one. -/
def Bounded (sel : Nat → Bool) (seg : List Event) : Prop :=
  ∀ k, 0 ≤ openCount sel (seg.take k) ∧ openCount sel (seg.take k) ≤ 1

/-- What a run of the reduction adds to the trace, given the error it returns:
the handles it opens number at most one at every instant and are all closed when
it returns no error, and either no abort-worthy operation failed in it, or one
did, the run returns its error, and only calls of `Close` follow the failure. -/
def RunInv (sel : Nat → Bool) (res : Option Error) (seg : List Event) : Prop :=
  Bounded sel seg ∧ (res = none → openCount sel seg = 0 ∧ Clean seg) ∧
    (Clean seg ∨ ∃ e, res = some e ∧ Aborted seg e)

/-- The error of a result, if any. -/
def errorOf {α : Type} : Except Error α → Option Error
  | .error e => some e
  | .ok _ => none

/-- The failure schedule on which exactly the operation performed at time `t`
fails, with the error `e`. -/
def failAt (t : Nat) (e : Error) : Nat → Option Error :=
  fun s => if s = t then some e else none

/-! ## The reduction in 64-bit arithmetic -/

/-- The value of a Go `int` computation on a 64-bit platform: the integer
congruent to `x` modulo `2^64` in the range from `-2^63` to `2^63 - 1`. -/
def wrapInt (x : Int) : Int :=
  (x + 9223372036854775808) % 18446744073709551616 - 9223372036854775808

/-- The values a Go `int` can hold on a 64-bit platform. -/
abbrev inInt64 (x : Int) : Prop :=
  -9223372036854775808 ≤ x ∧ x < 9223372036854775808

/-- The update `m[k] += d` in 64-bit arithmetic: the sum wraps around. -/
def Part.add64 (m : Part) (k : String) (d : Int) : Part :=
  m.insert k (wrapInt (m.get k + d))

/-- The loop `for k := range resultingPart` (lines 94-98) with the addition of
line 95 in 64-bit arithmetic. -/
def reduceSerializedParts.absorb64 : List String → Part → Part → Part × Part
  | [], resultingPart, otherPart => (resultingPart, otherPart)
  | k :: ks, resultingPart, otherPart =>
    reduceSerializedParts.absorb64 ks (resultingPart.add64 k (otherPart.get k))
      (otherPart.delete k)

/-- The body of the inner loop (lines 85-108) in 64-bit arithmetic: the control
flow of `reduceSerializedParts.foldPart`, the counts added by `absorb64`. -/
def reduceSerializedParts.foldPart64 {σ : Type} (other : serializedPartReadWritingFunc σ)
    (resultingPart : Part) (w : σ) : Except Error Part × σ :=
  match other w with
  | (.error err, w) => (.error err, w)
  | (.ok otherPartRWC, w) =>
    match deserializeMap otherPartRWC w with
    | (.error err, w) => (.error err, (otherPartRWC.Close w).2)
    | (.ok otherPart, w) =>
      match reduceSerializedParts.absorb64 resultingPart.keys resultingPart otherPart with
      | (resultingPart, otherPart) =>
        match otherPartRWC.Clear w with
        | (some err, w) => (.error err, w)
        | (none, w) =>
          match serializeMap otherPart otherPartRWC w with
          | (err, w) =>
            match err, (otherPartRWC.Close w).2 with
            | some err, w => (.error err, w)
            | none, w => (.ok resultingPart, w)

/-- The inner loop `for o := i + 1; o < len(parts); o++` in 64-bit arithmetic. -/
def reduceSerializedParts.inner64 {σ : Type} :
    List (serializedPartReadWritingFunc σ) → Part → σ → Except Error Part × σ
  | [], resultingPart, w => (.ok resultingPart, w)
  | other :: rest, resultingPart, w =>
    match reduceSerializedParts.foldPart64 other resultingPart w with
    | (.error err, w) => (.error err, w)
    | (.ok resultingPart, w) => reduceSerializedParts.inner64 rest resultingPart w

/-- The function `reduceSerializedParts` with Go's 64-bit `int`: the control flow
of `reduceSerializedParts` above, with the counts added as the machine adds them. -/
def reduceSerializedParts64 {σ : Type} :
    List (serializedPartReadWritingFunc σ) → Writer σ → σ → Option Error × σ
  | [], _, w => (none, w)
  | part :: rest, result, w =>
    match part w with
    | (.error err, w) => (some err, w)
    | (.ok resultingPartRWC, w) =>
      match deserializeMap resultingPartRWC w with
      | (.error err, w) => (some err, w)
      | (.ok resultingPart, w) =>
        match resultingPartRWC.Close w with
        | (some err, w) => (some err, w)
        | (none, w) =>
          match reduceSerializedParts.inner64 rest resultingPart w with
          | (.error err, w) => (some err, w)
          | (.ok resultingPart, w) =>
            match writeMapTabDelim resultingPart result w with
            | (some err, w) => (some err, w)
            | (none, w) => reduceSerializedParts64 rest result w

/-- The count an accumulator holds for a record after the counts `bs` of the
later parts have been added to its own count `a`, one 64-bit addition each. -/
def foldSum64 (a : Int) (bs : List Int) : Int :=
  bs.foldl (fun v b => wrapInt (v + b)) a

/-! ## Lemmas on parts -/

theorem Part.get_empty (r : String) : (∅ : Part).get r = 0 := by
  simp [Part.get]

theorem Part.len_empty : (∅ : Part).len = 0 := by
  simp [Part.len]

theorem Part.get_of_not_mem {m : Part} {r : String} (h : r ∉ m) : m.get r = 0 := by
  simp [Part.get, AList.lookup_eq_none.2 h]

theorem Part.lookup_of_mem {m : Part} {r : String} (h : r ∈ m) : m.lookup r = some (m.get r) := by
  have := AList.lookup_isSome.2 h
  cases hl : m.lookup r with
  | none => simp [hl] at this
  | some v => simp [Part.get, hl]

theorem Part.lookup_add (m : Part) (k : String) (d : Int) (r : String) :
    (m.add k d).lookup r = if r = k then some (m.get k + d) else m.lookup r := by
  unfold Part.add
  split_ifs with h
  · subst h; exact AList.lookup_insert m
  · exact AList.lookup_insert_ne h

theorem Part.get_add (m : Part) (k : String) (d : Int) (r : String) :
    (m.add k d).get r = if r = k then m.get k + d else m.get r := by
  unfold Part.get
  rw [Part.lookup_add]
  split_ifs <;> simp [Part.get]

theorem Part.mem_add (m : Part) (k : String) (d : Int) (r : String) :
    r ∈ m.add k d ↔ r = k ∨ r ∈ m := by
  unfold Part.add
  exact AList.mem_insert m

theorem Part.len_add (m : Part) (k : String) (d : Int) :
    (m.add k d).len = if k ∈ m then m.len else m.len + 1 := by
  unfold Part.add Part.len
  rw [AList.keys_insert, List.length_cons]
  split_ifs with h
  · rw [List.length_erase_of_mem (AList.mem_keys.1 h)]
    have : 0 < m.keys.length := List.length_pos_of_mem (AList.mem_keys.1 h)
    omega
  · rw [List.erase_of_not_mem (fun h' => h (AList.mem_keys.2 h'))]

theorem Part.lookup_delete (m : Part) (k r : String) :
    (m.delete k).lookup r = if r = k then none else m.lookup r := by
  unfold Part.delete
  split_ifs with h
  · subst h; exact AList.lookup_erase r m
  · exact AList.lookup_erase_ne h

theorem Part.get_delete (m : Part) (k r : String) :
    (m.delete k).get r = if r = k then 0 else m.get r := by
  unfold Part.get
  rw [Part.lookup_delete]
  split_ifs <;> simp

theorem Part.mem_delete (m : Part) (k r : String) :
    r ∈ m.delete k ↔ r ≠ k ∧ r ∈ m := by
  unfold Part.delete
  exact AList.mem_erase

theorem Part.len_pos_iff (m : Part) : 0 < m.len ↔ ∃ r, r ∈ m := by
  unfold Part.len
  rw [List.length_pos_iff_exists_mem]
  simp [AList.mem_keys]


/-! ## `dataToParts` with a `save` that never fails -/

theorem dataToParts.loop_eq {σ : Type} (limitPerPart : Int) (save : partSavingFunc σ)
    (hs : ∀ p n w, (save p n w).1 = none) (lines : List String) (part : Part) (partsCount : Nat)
    (w : σ) :
    dataToParts.loop limitPerPart save lines part partsCount w =
      (((dataToParts.flushed limitPerPart lines part).2,
          partsCount + (dataToParts.flushed limitPerPart lines part).1.length, none),
        dataToParts.saved save (dataToParts.flushed limitPerPart lines part).1 partsCount w) := by
  induction lines generalizing part partsCount w with
  | nil => simp [dataToParts.loop, dataToParts.flushed, dataToParts.saved]
  | cons text rest ih =>
    simp only [dataToParts.loop, dataToParts.flushed]
    generalize (if limitPerPart > 0 then part.add text 1 else part) = q
    by_cases h : (q.len : Int) ≥ limitPerPart
    · have h1 := hs q (partsCount + 1) w
      rcases hsv : save q (partsCount + 1) w with ⟨e, w1⟩
      rw [hsv] at h1
      simp only at h1
      subst h1
      simp only [if_pos h, ih, dataToParts.saved, hsv, List.length_cons]
      simp [Nat.add_assoc, Nat.add_comm 1]
    · simp only [if_neg h]
      exact ih _ _ _

theorem dataToParts.saved_recordSave (ps : List Part) (partsCount : Nat)
    (calls : List (Part × Nat)) :
    dataToParts.saved recordSave ps partsCount calls =
      calls ++ ps.zip (List.range' (partsCount + 1) ps.length) := by
  induction ps generalizing partsCount calls with
  | nil => simp [dataToParts.saved]
  | cons p ps ih =>
    simp [dataToParts.saved, ih, recordSave, List.range'_succ]

theorem dataToParts.saved_append {σ : Type} (save : partSavingFunc σ) (ps qs : List Part)
    (partsCount : Nat) (w : σ) :
    dataToParts.saved save (ps ++ qs) partsCount w =
      dataToParts.saved save qs (partsCount + ps.length)
        (dataToParts.saved save ps partsCount w) := by
  induction ps generalizing partsCount w with
  | nil => simp [dataToParts.saved]
  | cons p ps ih =>
    simp [dataToParts.saved, ih, Nat.add_assoc, Nat.add_comm 1]

/-- With a `save` that never fails and a cleanly ending input, `dataToParts`
returns the number of parts of `dataToParts.parts` and has saved exactly them. -/
theorem dataToParts_eq {σ : Type} (limitPerPart : Int) (save : partSavingFunc σ)
    (hs : ∀ p n w, (save p n w).1 = none) (lines : List String) (w : σ) :
    dataToParts ⟨lines, none⟩ limitPerPart save w =
      (((dataToParts.parts limitPerPart lines).length, none),
        dataToParts.saved save (dataToParts.parts limitPerPart lines) 0 w) := by
  unfold dataToParts
  simp only [dataToParts.loop_eq limitPerPart save hs]
  unfold dataToParts.parts
  split_ifs with h
  · have h1 := hs (dataToParts.flushed limitPerPart lines ∅).2
      ((dataToParts.flushed limitPerPart lines ∅).1.length + 1)
      (dataToParts.saved save (dataToParts.flushed limitPerPart lines ∅).1 0 w)
    simp only [dataToParts.saved_append, dataToParts.saved, Nat.zero_add, List.length_append,
      List.length_singleton, h1]
  · simp

/-- With a failing scanner, `dataToParts` returns the scanner's error and has
saved the parts flushed by the scanning loop only. -/
theorem dataToParts_eq_of_err {σ : Type} (limitPerPart : Int) (save : partSavingFunc σ)
    (hs : ∀ p n w, (save p n w).1 = none) (lines : List String) (e : Error) (w : σ) :
    dataToParts ⟨lines, some e⟩ limitPerPart save w =
      (((dataToParts.flushed limitPerPart lines ∅).1.length, some e),
        dataToParts.saved save (dataToParts.flushed limitPerPart lines ∅).1 0 w) := by
  unfold dataToParts
  simp only [dataToParts.loop_eq limitPerPart save hs]
  simp

theorem recordSave_ok (p : Part) (n : Nat) (w : List (Part × Nat)) : (recordSave p n w).1 = none :=
  rfl


/-! ## Properties of the flushed parts -/

theorem dataToParts.flushed_sum (L : Int) (hL : 0 < L) (r : String) (lines : List String)
    (part : Part) :
    ((dataToParts.flushed L lines part).1.map fun p => p.get r).sum +
        (dataToParts.flushed L lines part).2.get r =
      part.get r + (lines.count r : Int) := by
  induction lines generalizing part with
  | nil => simp [dataToParts.flushed]
  | cons text rest ih =>
    simp only [dataToParts.flushed, if_pos (show L > 0 from hL)]
    have hc : ((text :: rest).count r : Int) =
        (if r = text then 1 else 0) + (rest.count r : Int) := by
      rw [List.count_cons]
      by_cases h : r = text
      · subst h; simp; ring
      · have h' : (text == r) = false := beq_false_of_ne (Ne.symm h)
        simp [h, h']
    by_cases h : ((part.add text 1).len : Int) ≥ L
    · simp only [if_pos h, List.map_cons, List.sum_cons]
      have := ih ∅
      rw [Part.get_empty] at this
      rw [hc, Part.get_add]
      split_ifs with h1
      · subst h1; linarith
      · linarith
    · simp only [if_neg h]
      rw [ih, hc, Part.get_add]
      split_ifs with h1
      · subst h1; ring
      · ring

theorem dataToParts.flushed_len (L : Int) (hL : 0 < L) (lines : List String) (part : Part)
    (hp : (part.len : Int) < L) :
    (∀ p ∈ (dataToParts.flushed L lines part).1, (p.len : Int) = L) ∧
      ((dataToParts.flushed L lines part).2.len : Int) < L := by
  induction lines generalizing part with
  | nil => simpa [dataToParts.flushed] using hp
  | cons text rest ih =>
    simp only [dataToParts.flushed, if_pos (show L > 0 from hL)]
    have hle : ((part.add text 1).len : Int) ≤ L := by
      rw [Part.len_add]
      split_ifs
      · omega
      · push_cast; omega
    by_cases h : ((part.add text 1).len : Int) ≥ L
    · simp only [if_pos h, List.mem_cons, forall_eq_or_imp]
      have := ih ∅ (by rw [Part.len_empty]; simpa using hL)
      exact ⟨⟨le_antisymm hle h, this.1⟩, this.2⟩
    · simp only [if_neg h]
      exact ih _ (by omega)

theorem dataToParts.flushed_mem (L : Int) (hL : 0 < L) (r : String) (lines : List String)
    (part : Part) :
    ((∃ p ∈ (dataToParts.flushed L lines part).1, r ∈ p) ∨
        r ∈ (dataToParts.flushed L lines part).2) ↔ (r ∈ part ∨ r ∈ lines) := by
  induction lines generalizing part with
  | nil => simp [dataToParts.flushed]
  | cons text rest ih =>
    simp only [dataToParts.flushed, if_pos (show L > 0 from hL)]
    by_cases h : ((part.add text 1).len : Int) ≥ L
    · simp only [if_pos h, List.mem_cons, exists_eq_or_imp]
      have := ih ∅
      simp only [AList.not_mem_empty, false_or] at this
      rw [or_assoc, this, Part.mem_add]
      tauto
    · simp only [if_neg h]
      rw [ih, Part.mem_add, List.mem_cons]
      tauto

theorem dataToParts.flushed_of_nonpos (L : Int) (hL : L ≤ 0) (lines : List String) :
    dataToParts.flushed L lines ∅ = (List.replicate lines.length ∅, ∅) := by
  induction lines with
  | nil => simp [dataToParts.flushed]
  | cons text rest ih =>
    have h0 : ¬ L > 0 := by omega
    have h1 : ((∅ : Part).len : Int) ≥ L := by rw [Part.len_empty]; simpa using hL
    simp only [dataToParts.flushed, if_neg h0, if_pos h1, ih, List.length_cons,
      List.replicate_succ]

theorem dataToParts.parts_of_nonpos (L : Int) (hL : L ≤ 0) (lines : List String) :
    dataToParts.parts L lines = List.replicate lines.length ∅ := by
  simp [dataToParts.parts, dataToParts.flushed_of_nonpos L hL, Part.len_empty]

theorem dataToParts_recordSave (L : Int) (lines : List String) :
    dataToParts ⟨lines, none⟩ L recordSave [] =
      (((dataToParts.parts L lines).length, none),
        (dataToParts.parts L lines).zip (List.range' 1 (dataToParts.parts L lines).length)) := by
  rw [dataToParts_eq L recordSave recordSave_ok, dataToParts.saved_recordSave]
  simp

theorem dataToParts_recordSave_err (L : Int) (lines : List String) (e : Error) :
    dataToParts ⟨lines, some e⟩ L recordSave [] =
      (((dataToParts.flushed L lines ∅).1.length, some e),
        (dataToParts.flushed L lines ∅).1.zip
          (List.range' 1 (dataToParts.flushed L lines ∅).1.length)) := by
  rw [dataToParts_eq_of_err L recordSave recordSave_ok, dataToParts.saved_recordSave]
  simp

theorem zip_range_map_fst (ps : List Part) (k : Nat) :
    (ps.zip (List.range' k ps.length)).map Prod.fst = ps := by
  rw [List.map_fst_zip]
  simp

theorem zip_range_map_snd (ps : List Part) (k : Nat) :
    (ps.zip (List.range' k ps.length)).map Prod.snd = List.range' k ps.length := by
  rw [List.map_snd_zip]
  simp


theorem dataToParts.parts_sum (L : Int) (hL : 0 < L) (r : String) (lines : List String) :
    ((dataToParts.parts L lines).map fun p => p.get r).sum = (lines.count r : Int) := by
  have hs := dataToParts.flushed_sum L hL r lines ∅
  rw [Part.get_empty, zero_add] at hs
  unfold dataToParts.parts
  split_ifs with h
  · simpa using hs
  · have h0 : r ∉ (dataToParts.flushed L lines ∅).2 := by
      intro hr
      exact h ((Part.len_pos_iff _).2 ⟨r, hr⟩)
    rw [Part.get_of_not_mem h0, add_zero] at hs
    simpa using hs

theorem dataToParts.parts_mem (L : Int) (hL : 0 < L) (r : String) (lines : List String) :
    (∃ p ∈ dataToParts.parts L lines, r ∈ p) ↔ r ∈ lines := by
  have hm := dataToParts.flushed_mem L hL r lines ∅
  simp only [AList.not_mem_empty, false_or] at hm
  rw [← hm]
  unfold dataToParts.parts
  split_ifs with h
  · simp only [List.mem_append, List.mem_singleton]
    constructor
    · rintro ⟨p, hp | rfl, hr⟩
      · exact Or.inl ⟨p, hp, hr⟩
      · exact Or.inr hr
    · rintro (⟨p, hp, hr⟩ | hr)
      · exact ⟨p, Or.inl hp, hr⟩
      · exact ⟨_, Or.inr rfl, hr⟩
  · have h0 : r ∉ (dataToParts.flushed L lines ∅).2 := by
      intro hr
      exact h ((Part.len_pos_iff _).2 ⟨r, hr⟩)
    simp [h0]

/-! ## Claims on `dataToParts` -/

/-- Claim C3. For every input and every limit `L > 0`, with a `save` that never
fails, the counts of a record summed over all parts passed to `save` equal the
number of occurrences of the record in the input. -/
theorem dataToParts_counts_sum (lines : List String) (L : Int) (hL : 0 < L) (r : String) :
    ((dataToParts ⟨lines, none⟩ L recordSave []).2.map fun call => call.1.get r).sum =
      (lines.count r : Int) := by
  rw [dataToParts_recordSave]
  have hmap : ∀ calls : List (Part × Nat),
      (calls.map fun call => call.1.get r) = (calls.map Prod.fst).map fun p => p.get r := by
    intro calls; simp
  simp only [hmap, zip_range_map_fst]
  exact dataToParts.parts_sum L hL r lines

theorem dataToParts_counts_sum_witness :
    (0 : Int) < 5 ∧
      ((dataToParts ⟨["qA", "qB", "qC", "qD", "qA", "qA", "qE", "qF"], none⟩ 5
          recordSave []).2.map fun call => call.1.get "qA").sum =
        ((["qA", "qB", "qC", "qD", "qA", "qA", "qE", "qF"].count "qA" : Nat) : Int) :=
  ⟨by decide, dataToParts_counts_sum _ 5 (by decide) "qA"⟩


theorem dataToParts.calls_getElem {ps : List Part} {k i : Nat} {c : Part × Nat}
    (h : (ps.zip (List.range' k ps.length))[i]? = some c) : ps[i]? = some c.1 := by
  have := congrArg (Option.map Prod.fst) h
  rw [← List.getElem?_map, zip_range_map_fst] at this
  simpa using this

theorem dataToParts.calls_getLast {ps : List Part} {k : Nat} {c : Part × Nat}
    (h : (ps.zip (List.range' k ps.length)).getLast? = some c) : ps.getLast? = some c.1 := by
  have := congrArg (Option.map Prod.fst) h
  rw [← List.getLast?_map, zip_range_map_fst] at this
  simpa using this

/-- Claim C4. For every input and every limit `L > 0`, every part passed to `save`
by `dataToParts` except possibly the last has exactly `L` distinct keys, and the
last part passed has at least one and at most `L` distinct keys. -/
theorem dataToParts_part_sizes (r : Reader) (L : Int) (hL : 0 < L) :
    (∀ i call, i + 1 < (dataToParts r L recordSave []).2.length →
        (dataToParts r L recordSave []).2[i]? = some call → (call.1.len : Int) = L) ∧
      (∀ call, (dataToParts r L recordSave []).2.getLast? = some call →
        1 ≤ call.1.len ∧ (call.1.len : Int) ≤ L) := by
  obtain ⟨lines, err⟩ := r
  have hf := dataToParts.flushed_len L hL lines ∅ (by rw [Part.len_empty]; simpa using hL)
  cases err with
  | some e =>
    rw [dataToParts_recordSave_err]
    refine ⟨fun i call _ hc => ?_, fun call hc => ?_⟩
    · exact hf.1 _ (List.getElem?_mem (dataToParts.calls_getElem hc))
    · have := hf.1 _ (List.mem_of_getLast?_eq_some (dataToParts.calls_getLast hc))
      omega
  | none =>
    rw [dataToParts_recordSave]
    unfold dataToParts.parts
    split_ifs with h
    · refine ⟨fun i call hi hc => ?_, fun call hc => ?_⟩
      · have hc' := dataToParts.calls_getElem hc
        have hi' : i < (dataToParts.flushed L lines ∅).1.length := by
          simpa using hi
        rw [List.getElem?_append_left hi'] at hc'
        exact hf.1 _ (List.getElem?_mem hc')
      · have hc' := dataToParts.calls_getLast hc
        simp only [List.getLast?_append, List.getLast?_singleton, Option.or_some,
          Option.some.injEq] at hc'
        rw [← hc']
        omega
    · simp only [List.append_nil]
      refine ⟨fun i call _ hc => ?_, fun call hc => ?_⟩
      · exact hf.1 _ (List.getElem?_mem (dataToParts.calls_getElem hc))
      · have := hf.1 _ (List.mem_of_getLast?_eq_some (dataToParts.calls_getLast hc))
        omega

theorem dataToParts_part_sizes_witness :
    (0 : Int) < 5 ∧
      ((∀ i call,
          i + 1 < (dataToParts ⟨["qA", "qB", "qC", "qD", "qA", "qA", "qE", "qF"], none⟩ 5
            recordSave []).2.length →
          (dataToParts ⟨["qA", "qB", "qC", "qD", "qA", "qA", "qE", "qF"], none⟩ 5
            recordSave []).2[i]? = some call → (call.1.len : Int) = 5) ∧
        (∀ call,
          (dataToParts ⟨["qA", "qB", "qC", "qD", "qA", "qA", "qE", "qF"], none⟩ 5
            recordSave []).2.getLast? = some call →
          1 ≤ call.1.len ∧ (call.1.len : Int) ≤ 5)) :=
  ⟨by decide, dataToParts_part_sizes _ 5 (by decide)⟩

/-- Claim C6. For every input and every limit, when neither `save` nor reading the
input fails, `dataToParts` calls `save` exactly `n` times, with the part numbers
`1, 2, ..., n` in this order, and returns `n` and no error. -/
theorem dataToParts_part_numbers (lines : List String) (limit : Int) :
    (dataToParts ⟨lines, none⟩ limit recordSave []).1 =
        ((dataToParts ⟨lines, none⟩ limit recordSave []).2.length, none) ∧
      (dataToParts ⟨lines, none⟩ limit recordSave []).2.map Prod.snd =
        List.range' 1 (dataToParts ⟨lines, none⟩ limit recordSave []).2.length := by
  rw [dataToParts_recordSave]
  constructor
  · simp
  · rw [zip_range_map_snd]
    simp

/-- Claim C7. For every input of `n` lines and every limit `<= 0`, `dataToParts`
calls `save` exactly `n` times, each time with an empty part, and returns `n`. -/
theorem dataToParts_nonpos_limit (r : Reader) (limit : Int) (h : limit ≤ 0) :
    (dataToParts r limit recordSave []).2.length = r.lines.length ∧
      (∀ call ∈ (dataToParts r limit recordSave []).2, call.1 = ∅) ∧
      (dataToParts r limit recordSave []).1.1 = r.lines.length := by
  obtain ⟨lines, err⟩ := r
  cases err with
  | some e =>
    rw [dataToParts_recordSave_err, dataToParts.flushed_of_nonpos limit h]
    refine ⟨by simp, fun call hc => ?_, by simp⟩
    have := List.mem_map_of_mem Prod.fst hc
    rw [zip_range_map_fst] at this
    exact List.eq_of_mem_replicate this
  | none =>
    rw [dataToParts_recordSave, dataToParts.parts_of_nonpos limit h]
    refine ⟨by simp, fun call hc => ?_, by simp⟩
    have := List.mem_map_of_mem Prod.fst hc
    rw [zip_range_map_fst] at this
    exact List.eq_of_mem_replicate this

theorem dataToParts_nonpos_limit_witness :
    (0 : Int) ≤ 0 ∧
      (dataToParts ⟨["qA", "qB", "qA"], none⟩ 0 recordSave []).2.length = 3 ∧
      (∀ call ∈ (dataToParts ⟨["qA", "qB", "qA"], none⟩ 0 recordSave []).2, call.1 = ∅) ∧
      (dataToParts ⟨["qA", "qB", "qA"], none⟩ 0 recordSave []).1.1 = 3 :=
  ⟨by decide, dataToParts_nonpos_limit ⟨["qA", "qB", "qA"], none⟩ 0 (by decide)⟩

/-- Claim C8 as stated fails. With limit `0` the parts passed to `save` for the
lines `qA`, `qB`, `qA` are three empty maps, not the singletons `{qA: 1}`,
`{qB: 1}`, `{qA: 1}`. -/
theorem dataToParts_nonpos_not_singleton :
    ((dataToParts ⟨["qA", "qB", "qA"], none⟩ 0 recordSave []).2.map fun call =>
        call.1.entries) = [[], [], []] ∧
      ((dataToParts ⟨["qA", "qB", "qA"], none⟩ 0 recordSave []).2.map fun call =>
        call.1.entries) ≠ [[⟨"qA", 1⟩], [⟨"qB", 1⟩], [⟨"qA", 1⟩]] := by
  decide

/-- Claim C8, amended. For every input and every limit `<= 0`, every line flushes a
part of its own, and this part is empty: the `k`-th call of `save` receives the
empty map and the part number `k`. -/
theorem dataToParts_nonpos_kth (r : Reader) (limit : Int) (h : limit ≤ 0) (k : Nat)
    (hk : k < r.lines.length) :
    (dataToParts r limit recordSave []).2[k]? = some (∅, k + 1) := by
  obtain ⟨lines, err⟩ := r
  simp only at hk
  have hz : ((List.replicate lines.length (∅ : Part)).zip
      (List.range' 1 (List.replicate lines.length (∅ : Part)).length))[k]? =
      some (∅, k + 1) := by
    rw [List.getElem?_zip_eq_some]
    simp [hk, List.getElem?_range', Nat.add_comm]
  cases err with
  | some e =>
    rw [dataToParts_recordSave_err, dataToParts.flushed_of_nonpos limit h]
    exact hz
  | none =>
    rw [dataToParts_recordSave, dataToParts.parts_of_nonpos limit h]
    exact hz

theorem dataToParts_nonpos_kth_witness :
    (0 : Int) ≤ 0 ∧ 2 < ["qA", "qB", "qA"].length ∧
      (dataToParts ⟨["qA", "qB", "qA"], none⟩ 0 recordSave []).2[2]? = some (∅, 3) :=
  ⟨by decide, by decide,
    dataToParts_nonpos_kth ⟨["qA", "qB", "qA"], none⟩ 0 (by decide) 2 (by decide)⟩


/-! ## `reduceSerializedParts` on faithful storage -/

theorem writeMapTabDelim.loop_disk (es : List (Sigma fun _ : String => Int)) (w : Disk) :
    writeMapTabDelim.loop Disk.write es w =
      (none, { w with out := w.out ++ es.map fun e => tabLine e.1 e.2 }) := by
  induction es generalizing w with
  | nil => simp [writeMapTabDelim.loop]
  | cons e es ih =>
    obtain ⟨k, v⟩ := e
    simp [writeMapTabDelim.loop, Disk.write, ih]

theorem reduceSerializedParts.absorb_lookup_fst (ks : List String) (acc q : Part) (r : String) :
    (reduceSerializedParts.absorb ks acc q).1.lookup r =
      if r ∈ ks then some (acc.get r + q.get r) else acc.lookup r := by
  induction ks generalizing acc q with
  | nil => simp [reduceSerializedParts.absorb]
  | cons k ks ih =>
    simp only [reduceSerializedParts.absorb, ih, List.mem_cons, Part.get_add, Part.get_delete,
      Part.lookup_add]
    by_cases h1 : r = k
    · subst h1
      by_cases h2 : r ∈ ks <;> simp [h2]
    · by_cases h2 : r ∈ ks <;> simp [h1, h2]

theorem reduceSerializedParts.absorb_lookup_snd (ks : List String) (acc q : Part) (r : String) :
    (reduceSerializedParts.absorb ks acc q).2.lookup r =
      if r ∈ ks then none else q.lookup r := by
  induction ks generalizing acc q with
  | nil => simp [reduceSerializedParts.absorb]
  | cons k ks ih =>
    simp only [reduceSerializedParts.absorb, ih, List.mem_cons, Part.lookup_delete]
    by_cases h1 : r = k
    · subst h1
      by_cases h2 : r ∈ ks <;> simp [h2]
    · by_cases h2 : r ∈ ks <;> simp [h1, h2]

theorem reduceSerializedParts.foldPart_disk (o : Nat) (acc q : Part) (w : Disk)
    (h : w.files o = some q) :
    reduceSerializedParts.foldPart (Disk.readWriting o) acc w =
      (.ok (reduceSerializedParts.absorb acc.keys acc q).1,
        ⟨Function.update w.files o (some (reduceSerializedParts.absorb acc.keys acc q).2),
          w.out⟩) := by
  simp [reduceSerializedParts.foldPart, Disk.readWriting, deserializeMap, serializeMap,
    Disk.handle, h]

theorem reduceSerializedParts.foldPart_disk_none (o : Nat) (acc : Part) (w : Disk)
    (h : w.files o = none) :
    reduceSerializedParts.foldPart (Disk.readWriting o) acc w = (.error "EOF", w) := by
  simp [reduceSerializedParts.foldPart, Disk.readWriting, deserializeMap, Disk.handle, h]


theorem Part.lookup_self (acc : Part) (r : String) :
    acc.lookup r = if r ∈ acc then some (acc.get r) else none := by
  split_ifs with h
  · exact Part.lookup_of_mem h
  · exact AList.lookup_eq_none.2 h

theorem Part.mem_iff_lookup_isSome (m : Part) (r : String) : r ∈ m ↔ (m.lookup r).isSome :=
  AList.lookup_isSome.symm

theorem reduceSerializedParts.absorb_mem (acc q : Part) (r : String) :
    r ∈ (reduceSerializedParts.absorb acc.keys acc q).1 ↔ r ∈ acc := by
  rw [Part.mem_iff_lookup_isSome, reduceSerializedParts.absorb_lookup_fst]
  by_cases h : r ∈ acc
  · simp [AList.mem_keys.1 h, h]
  · have h' : r ∉ acc.keys := fun hk => h (AList.mem_keys.2 hk)
    simp [h', h, AList.lookup_eq_none.2 h]

theorem reduceSerializedParts.absorb_get (acc q : Part) (r : String) (h : r ∈ acc) :
    (reduceSerializedParts.absorb acc.keys acc q).1.get r = acc.get r + q.get r := by
  have h' : r ∈ acc.keys := AList.mem_keys.1 h
  rw [Part.get, reduceSerializedParts.absorb_lookup_fst, if_pos h']
  rfl

theorem reduceSerializedParts.inner_disk (os : List Nat) (hnd : os.Nodup) (acc : Part) (w : Disk)
    (hf : ∀ o ∈ os, (w.files o).isSome) :
    ∃ acc' w', reduceSerializedParts.inner (os.map Disk.readWriting) acc w = (.ok acc', w') ∧
      w'.out = w.out ∧
      (∀ j, j ∉ os → w'.files j = w.files j) ∧
      (∀ o ∈ os, (w'.files o).isSome) ∧
      (∀ o ∈ os, ∀ r, w'.lookup o r = if r ∈ acc then none else w.lookup o r) ∧
      (∀ r, acc'.lookup r =
        if r ∈ acc then some (acc.get r + (os.map fun o => (w.lookup o r).getD 0).sum)
        else none) := by
  induction os generalizing acc w with
  | nil =>
    refine ⟨acc, w, by simp [reduceSerializedParts.inner], rfl, fun _ _ => rfl, by simp,
      by simp, fun r => ?_⟩
    simpa using Part.lookup_self acc r
  | cons o os ih =>
    rw [List.nodup_cons] at hnd
    obtain ⟨q, hq⟩ := Option.isSome_iff_exists.1 (hf o (List.mem_cons_self _ _))
    have hne : ∀ o' ∈ os, o' ≠ o := fun o' ho' h => hnd.1 (h ▸ ho')
    obtain ⟨acc', w', hrun, hout, hframe, hsome, hlook, hacc⟩ :=
      ih hnd.2 (reduceSerializedParts.absorb acc.keys acc q).1
        ⟨Function.update w.files o (some (reduceSerializedParts.absorb acc.keys acc q).2), w.out⟩
        (fun o' ho' => by
          simp only [Function.update_noteq (hne o' ho')]
          exact hf o' (List.mem_cons_of_mem _ ho'))
    refine ⟨acc', w', ?_, hout, ?_, ?_, ?_, ?_⟩
    · simp only [List.map_cons, reduceSerializedParts.inner,
        reduceSerializedParts.foldPart_disk o acc q w hq]
      exact hrun
    · intro j hj
      rw [List.mem_cons, not_or] at hj
      rw [hframe j hj.2]
      exact Function.update_noteq hj.1 _ _
    · intro o' ho'
      rcases List.mem_cons.1 ho' with h | h
      · subst h
        rw [hframe _ hnd.1]
        simp
      · exact hsome o' h
    · intro o' ho' r
      rcases List.mem_cons.1 ho' with h | h
      · subst h
        simp only [Disk.lookup, hframe _ hnd.1, Function.update_same, Option.some_bind, hq,
          reduceSerializedParts.absorb_lookup_snd, AList.mem_keys]
      · rw [hlook o' h r]
        by_cases hr : r ∈ acc
        · rw [if_pos hr, if_pos ((reduceSerializedParts.absorb_mem acc q r).2 hr)]
        · rw [if_neg hr, if_neg (fun h' => hr ((reduceSerializedParts.absorb_mem acc q r).1 h'))]
          simp only [Disk.lookup, Function.update_noteq (hne o' h)]
    · intro r
      rw [hacc r]
      by_cases hr : r ∈ acc
      · rw [if_pos hr, if_pos ((reduceSerializedParts.absorb_mem acc q r).2 hr),
          reduceSerializedParts.absorb_get acc q r hr, List.map_cons, List.sum_cons]
        have h1 : (w.lookup o r).getD 0 = q.get r := by
          simp [Disk.lookup, hq, Part.get]
        have h2 : (os.map fun o' => ((Disk.mk (Function.update w.files o
            (some (reduceSerializedParts.absorb acc.keys acc q).2)) w.out).lookup o' r).getD 0) =
            os.map fun o' => (w.lookup o' r).getD 0 := by
          apply List.map_congr_left
          intro o' ho'
          simp only [Disk.lookup, Function.update_noteq (hne o' ho')]
        rw [h1, h2, add_assoc]
      · rw [if_neg hr, if_neg (fun h' => hr ((reduceSerializedParts.absorb_mem acc q r).1 h'))]


theorem Disk.lookup_isSome_of_file {w : Disk} {n : Nat} {p : Part} (h : w.files n = some p)
    (r : String) : (w.lookup n r).isSome ↔ r ∈ p := by
  simp [Disk.lookup, h, Part.mem_iff_lookup_isSome]

theorem Disk.lookup_getD_of_file {w : Disk} {n : Nat} {p : Part} (h : w.files n = some p)
    (r : String) : (w.lookup n r).getD 0 = p.get r := by
  simp [Disk.lookup, h, Part.get]

/-- The run of `reduceSerializedParts` over pairwise distinct part files of a
faithful disk: it succeeds, and the lines it appends are those of a list of
entries with pairwise distinct keys, whose keys are the records of the part files
and whose counts are the sums over the part files. -/
theorem reduceSerializedParts_disk (idxs : List Nat) (hnd : idxs.Nodup) (w : Disk)
    (hf : ∀ i ∈ idxs, (w.files i).isSome) :
    ∃ (report : List (Sigma fun _ : String => Int)) (w' : Disk),
      reduceSerializedParts (idxs.map Disk.readWriting) Disk.write w = (none, w') ∧
      w'.out = w.out ++ report.map (fun e => tabLine e.1 e.2) ∧
      report.NodupKeys ∧
      (∀ r, r ∈ report.keys ↔ ∃ i ∈ idxs, (w.lookup i r).isSome) ∧
      (∀ r, (report.dlookup r).getD 0 = (idxs.map fun i => (w.lookup i r).getD 0).sum) := by
  induction idxs generalizing w with
  | nil =>
    exact ⟨[], w, by simp [reduceSerializedParts], by simp, List.nodupKeys_nil, by simp,
      by simp⟩
  | cons i rest ih =>
    rw [List.nodup_cons] at hnd
    obtain ⟨p, hp⟩ := Option.isSome_iff_exists.1 (hf i (List.mem_cons_self _ _))
    obtain ⟨acc', w1, hrun, hout, -, hsome, hlook, hacc⟩ :=
      reduceSerializedParts.inner_disk rest hnd.2 p w
        (fun o ho => hf o (List.mem_cons_of_mem _ ho))
    obtain ⟨report', w', hrun', hout', hnd', hkeys', hval'⟩ :=
      ih hnd.2 ⟨w1.files, w1.out ++ acc'.entries.map fun e => tabLine e.1 e.2⟩ hsome
    have hmem : ∀ r, r ∈ acc'.entries.keys ↔ r ∈ p := by
      intro r
      rw [← AList.keys, ← AList.mem_keys, Part.mem_iff_lookup_isSome, hacc r]
      by_cases hr : r ∈ p <;> simp [hr]
    have hlook2 : ∀ o ∈ rest, ∀ r,
        (Disk.mk w1.files (w1.out ++ acc'.entries.map fun e => tabLine e.1 e.2)).lookup o r =
          if r ∈ p then none else w.lookup o r := fun o ho r => hlook o ho r
    have hrest : ∀ r, r ∈ report'.keys ↔ r ∉ p ∧ ∃ o ∈ rest, (w.lookup o r).isSome := by
      intro r
      rw [hkeys' r]
      constructor
      · rintro ⟨o, ho, h⟩
        rw [hlook2 o ho r] at h
        by_cases hr : r ∈ p
        · simp [hr] at h
        · rw [if_neg hr] at h
          exact ⟨hr, o, ho, h⟩
      · rintro ⟨hr, o, ho, h⟩
        refine ⟨o, ho, ?_⟩
        rw [hlook2 o ho r, if_neg hr]
        exact h
    refine ⟨acc'.entries ++ report', w', ?_, ?_, ?_, ?_, ?_⟩
    · simp only [List.map_cons, reduceSerializedParts, Disk.readWriting, deserializeMap,
        Disk.handle, hp, hrun, writeMapTabDelim, writeMapTabDelim.loop_disk]
      exact hrun'
    · rw [hout']
      simp [hout, List.append_assoc]
    · unfold List.NodupKeys
      rw [List.keys, List.map_append, List.nodup_append]
      refine ⟨acc'.nodupKeys, hnd', ?_⟩
      intro r h1 h2
      exact ((hrest r).1 h2).1 ((hmem r).1 h1)
    · intro r
      rw [List.keys, List.map_append, List.mem_append]
      change r ∈ acc'.entries.keys ∨ r ∈ report'.keys ↔ _
      rw [hmem, hrest]
      simp only [List.mem_cons, exists_eq_or_imp, Disk.lookup_isSome_of_file hp]
      tauto
    · intro r
      rw [List.dlookup_append, List.map_cons, List.sum_cons, Disk.lookup_getD_of_file hp]
      change ((acc'.lookup r).or (report'.dlookup r)).getD 0 = _
      rw [hacc r]
      by_cases hr : r ∈ p
      · simp [hr]
      · rw [if_neg hr, Option.none_or, hval' r, Part.get_of_not_mem hr, zero_add]
        congr 1
        apply List.map_congr_left
        intro o ho
        rw [hlook2 o ho r, if_neg hr]


/-! ## Part files holding a given list of parts -/

theorem Disk.map_lookup_eq (w : Disk) (ps : List Part) (g : Nat → Nat)
    (h : ∀ j, j < ps.length → w.files (g j) = ps[j]?) (r : String) :
    (((List.range ps.length).map g).map fun i => (w.lookup i r).getD 0) =
      ps.map fun p => p.get r := by
  apply List.ext_getElem
  · simp
  · intro j h1 h2
    have hj : j < ps.length := by simpa using h1
    simp [Disk.lookup, h j hj, List.getElem?_eq_getElem hj, Part.get]

theorem Disk.exists_lookup_iff (w : Disk) (ps : List Part) (g : Nat → Nat)
    (h : ∀ j, j < ps.length → w.files (g j) = ps[j]?) (r : String) :
    (∃ i ∈ (List.range ps.length).map g, (w.lookup i r).isSome) ↔ ∃ p ∈ ps, r ∈ p := by
  constructor
  · rintro ⟨i, hi, hr⟩
    obtain ⟨j, hj, rfl⟩ := List.mem_map.1 hi
    have hj' : j < ps.length := List.mem_range.1 hj
    have hfile : w.files (g j) = some ps[j] := by
      rw [h j hj', List.getElem?_eq_getElem hj']
    exact ⟨ps[j], List.getElem_mem _, (Disk.lookup_isSome_of_file hfile r).1 hr⟩
  · rintro ⟨p, hp, hr⟩
    obtain ⟨j, hj, rfl⟩ := List.getElem_of_mem hp
    have hfile : w.files (g j) = some ps[j] := by
      rw [h j hj, List.getElem?_eq_getElem hj]
    exact ⟨g j, List.mem_map_of_mem g (List.mem_range.2 hj),
      (Disk.lookup_isSome_of_file hfile r).2 hr⟩

theorem Disk.files_isSome (w : Disk) (ps : List Part) (g : Nat → Nat)
    (h : ∀ j, j < ps.length → w.files (g j) = ps[j]?) :
    ∀ i ∈ (List.range ps.length).map g, (w.files i).isSome := by
  intro i hi
  obtain ⟨j, hj, rfl⟩ := List.mem_map.1 hi
  have hj' : j < ps.length := List.mem_range.1 hj
  rw [h j hj', List.getElem?_eq_getElem hj']
  rfl

/-- The run of `reduceSerializedParts` over part files that hold the parts `ps`:
it succeeds and writes the lines of a map whose keys are the records of the parts
and whose counts are the sums over the parts. -/
theorem reduceSerializedParts_files (w : Disk) (ps : List Part) (g : Nat → Nat)
    (hg : ((List.range ps.length).map g).Nodup)
    (h : ∀ j, j < ps.length → w.files (g j) = ps[j]?) :
    ∃ (report : Part) (w' : Disk),
      reduceSerializedParts (((List.range ps.length).map g).map Disk.readWriting) Disk.write w =
        (none, w') ∧
      w'.out = w.out ++ report.entries.map (fun e => tabLine e.1 e.2) ∧
      (∀ r, r ∈ report ↔ ∃ p ∈ ps, r ∈ p) ∧
      (∀ r, report.get r = (ps.map fun p => p.get r).sum) := by
  obtain ⟨report, w', hrun, hout, hnd, hkeys, hval⟩ :=
    reduceSerializedParts_disk _ hg w (Disk.files_isSome w ps g h)
  refine ⟨⟨report, hnd⟩, w', hrun, hout, fun r => ?_, fun r => ?_⟩
  · rw [AList.mem_keys]
    exact (hkeys r).trans (Disk.exists_lookup_iff w ps g h r)
  · exact (hval r).trans (congrArg List.sum (Disk.map_lookup_eq w ps g h r))

theorem reduceSerializedParts_ofParts (parts : List Part) :
    ∃ (report : Part) (w' : Disk),
      reduceSerializedParts (Disk.factories parts.length) Disk.write (Disk.ofParts parts) =
        (none, w') ∧
      w'.out = report.entries.map (fun e => tabLine e.1 e.2) ∧
      (∀ r, r ∈ report ↔ ∃ p ∈ parts, r ∈ p) ∧
      (∀ r, report.get r = (parts.map fun p => p.get r).sum) := by
  have h := reduceSerializedParts_files (Disk.ofParts parts) parts id
    (by rw [List.map_id]; exact List.nodup_range _) (fun j _ => rfl)
  rw [List.map_id] at h
  simpa [Disk.factories, Disk.ofParts] using h

/-! ## Claims on `reduceSerializedParts` -/

/-- With exact addition: for every list of parts held in faithful storage,
`reduceSerializedParts` succeeds, and the report it writes consists of the lines
of a map from record to count whose records are exactly the records occurring in
some part and whose count for each record is the sum of the record's counts over
all parts. -/
theorem reduceSerializedParts_sums (parts : List Part) :
    ∃ (report : Part) (w' : Disk),
      reduceSerializedParts (Disk.factories parts.length) Disk.write (Disk.ofParts parts) =
        (none, w') ∧
      w'.out = report.entries.map (fun e => tabLine e.1 e.2) ∧
      (∀ r, r ∈ report ↔ ∃ p ∈ parts, r ∈ p) ∧
      (∀ r, report.get r = (parts.map fun p => p.get r).sum) :=
  reduceSerializedParts_ofParts parts

/-- Claim C5. For every list of parts and every permutation of it, the report
written by `reduceSerializedParts` on the permuted list has the same lines as the
report written on the original list, up to the order of the lines. -/
theorem reduceSerializedParts_perm (parts parts' : List Part) (h : parts'.Perm parts) :
    (reduceSerializedParts (Disk.factories parts'.length) Disk.write
        (Disk.ofParts parts')).2.out.Perm
      (reduceSerializedParts (Disk.factories parts.length) Disk.write
        (Disk.ofParts parts)).2.out := by
  obtain ⟨R, w, hrun, hout, hmem, hget⟩ := reduceSerializedParts_ofParts parts
  obtain ⟨R', w', hrun', hout', hmem', hget'⟩ := reduceSerializedParts_ofParts parts'
  rw [hrun, hrun']
  simp only [hout, hout']
  apply List.Perm.map
  apply List.lookup_ext R'.nodupKeys R.nodupKeys
  intro x y
  have hm : x ∈ R' ↔ x ∈ R := by
    rw [hmem, hmem']
    exact ⟨fun ⟨p, hp, hx⟩ => ⟨p, h.mem_iff.1 hp, hx⟩, fun ⟨p, hp, hx⟩ => ⟨p, h.mem_iff.2 hp, hx⟩⟩
  have hg : R'.get x = R.get x := by
    rw [hget, hget']
    exact (h.map _).sum_eq
  change y ∈ R'.lookup x ↔ y ∈ R.lookup x
  rw [Part.lookup_self R' x, Part.lookup_self R x, hg]
  by_cases hx : x ∈ R
  · rw [if_pos hx, if_pos (hm.2 hx)]
  · rw [if_neg hx, if_neg (fun h' => hx (hm.1 h'))]

theorem reduceSerializedParts_perm_witness :
    [Part.ofList [("qA", 1), ("qE", 1)], Part.ofList [("qA", 2), ("qB", 1)]].Perm
        [Part.ofList [("qA", 2), ("qB", 1)], Part.ofList [("qA", 1), ("qE", 1)]] ∧
      (reduceSerializedParts (Disk.factories 2) Disk.write
          (Disk.ofParts [Part.ofList [("qA", 1), ("qE", 1)],
            Part.ofList [("qA", 2), ("qB", 1)]])).2.out.Perm
        (reduceSerializedParts (Disk.factories 2) Disk.write
          (Disk.ofParts [Part.ofList [("qA", 2), ("qB", 1)],
            Part.ofList [("qA", 1), ("qE", 1)]])).2.out :=
  ⟨List.Perm.swap _ _ _,
    reduceSerializedParts_perm
      [Part.ofList [("qA", 2), ("qB", 1)], Part.ofList [("qA", 1), ("qE", 1)]]
      [Part.ofList [("qA", 1), ("qE", 1)], Part.ofList [("qA", 2), ("qB", 1)]]
      (List.Perm.swap _ _ _)⟩

/-- Claim C9. For every list of parts, the report written by
`reduceSerializedParts` consists of exactly one line per distinct record
occurring in some part, each line being the record, a tab, the decimal count and
a newline; no record is written on two lines. -/
theorem reduceSerializedParts_lines (parts : List Part) :
    ∃ records : List (String × Int),
      (reduceSerializedParts (Disk.factories parts.length) Disk.write
          (Disk.ofParts parts)).2.out =
        records.map (fun e => e.1 ++ "\t" ++ toString e.2 ++ "\n") ∧
      (records.map Prod.fst).Perm (parts.map AList.keys).flatten.dedup := by
  obtain ⟨R, w, hrun, hout, hmem, -⟩ := reduceSerializedParts_ofParts parts
  refine ⟨R.entries.map fun e => (e.1, e.2), ?_, ?_⟩
  · rw [hrun]
    simp only [hout, List.map_map]
    rfl
  · rw [List.map_map]
    apply (List.perm_ext_iff_of_nodup _ (List.nodup_dedup _)).2
    · intro r
      change r ∈ R.keys ↔ _
      rw [← AList.mem_keys, hmem, List.mem_dedup, List.mem_flatten]
      constructor
      · rintro ⟨p, hp, hr⟩
        exact ⟨p.keys, List.mem_map_of_mem _ hp, AList.mem_keys.1 hr⟩
      · rintro ⟨l, hl, hr⟩
        obtain ⟨p, hp, rfl⟩ := List.mem_map.1 hl
        exact ⟨p, hp, AList.mem_keys.2 hr⟩
    · exact R.keys_nodup


/-! ## Keys absent from a part file stay absent -/

theorem reduceSerializedParts.foldPart_absent (j : Nat) (r : String) (o : Nat) (acc : Part)
    (w : Disk) (h : w.lookup j r = none) :
    (reduceSerializedParts.foldPart (Disk.readWriting o) acc w).2.lookup j r = none := by
  cases hq : w.files o with
  | none =>
    rw [reduceSerializedParts.foldPart_disk_none o acc w hq]
    exact h
  | some q =>
    rw [reduceSerializedParts.foldPart_disk o acc q w hq]
    by_cases hj : j = o
    · subst hj
      simp only [Disk.lookup, Function.update_same, Option.some_bind,
        reduceSerializedParts.absorb_lookup_snd]
      split_ifs
      · rfl
      · simpa [Disk.lookup, hq] using h
    · simpa only [Disk.lookup, Function.update_noteq hj] using h

theorem reduceSerializedParts.inner_absent (j : Nat) (r : String) (os : List Nat) (acc : Part)
    (w : Disk) (h : w.lookup j r = none) :
    (reduceSerializedParts.inner (os.map Disk.readWriting) acc w).2.lookup j r = none := by
  induction os generalizing acc w with
  | nil => simpa [reduceSerializedParts.inner] using h
  | cons o os ih =>
    simp only [List.map_cons, reduceSerializedParts.inner]
    have h1 := reduceSerializedParts.foldPart_absent j r o acc w h
    rcases hfp : reduceSerializedParts.foldPart (Disk.readWriting o) acc w with ⟨res, w1⟩
    rw [hfp] at h1
    cases res with
    | error e => exact h1
    | ok acc1 => exact ih acc1 w1 h1

theorem writeMapTabDelim_absent (j : Nat) (r : String) (m : Part) (w : Disk)
    (h : w.lookup j r = none) : (writeMapTabDelim m Disk.write w).2.lookup j r = none := by
  rw [writeMapTabDelim, writeMapTabDelim.loop_disk]
  exact h

theorem reduceSerializedParts_absent (j : Nat) (r : String) (idxs : List Nat) (w : Disk)
    (h : w.lookup j r = none) :
    (reduceSerializedParts (idxs.map Disk.readWriting) Disk.write w).2.lookup j r = none := by
  induction idxs generalizing w with
  | nil => simpa [reduceSerializedParts] using h
  | cons i rest ih =>
    simp only [List.map_cons, reduceSerializedParts, Disk.readWriting, deserializeMap,
      Disk.handle]
    cases hp : w.files i with
    | none => exact h
    | some p =>
      simp only
      have h1 := reduceSerializedParts.inner_absent j r rest p w h
      rcases hin : reduceSerializedParts.inner (rest.map Disk.readWriting) p w with ⟨res, w1⟩
      rw [hin] at h1
      cases res with
      | error e => exact h1
      | ok acc1 =>
        simp only [writeMapTabDelim, writeMapTabDelim.loop_disk]
        exact ih _ h1


/-- Claim C10. When a later part `o` is folded into an accumulator, the content
stored for part `o` afterwards is its previous content restricted to the keys
absent from the accumulator, with the counts of the surviving keys unchanged; and
a key of the accumulator, absent from part `o` from then on, stays absent through
every later step: folding any part into any accumulator, a whole inner loop,
writing an accumulator, and a whole run of the outer loop. -/
theorem reduceSerializedParts_fold_rewrites (w : Disk) (o : Nat) (acc q : Part)
    (h : w.files o = some q) :
    ∃ q', (reduceSerializedParts.foldPart (Disk.readWriting o) acc w).2.files o = some q' ∧
      (∀ r, q'.lookup r = if r ∈ acc then none else q.lookup r) ∧
      (∀ r, r ∈ acc →
        (reduceSerializedParts.foldPart (Disk.readWriting o) acc w).2.lookup o r = none ∧
        ∀ w2 : Disk, w2.lookup o r = none → ∀ (o' : Nat) (acc2 : Part) (os idxs : List Nat),
          (reduceSerializedParts.foldPart (Disk.readWriting o') acc2 w2).2.lookup o r = none ∧
          (reduceSerializedParts.inner (os.map Disk.readWriting) acc2 w2).2.lookup o r = none ∧
          (writeMapTabDelim acc2 Disk.write w2).2.lookup o r = none ∧
          (reduceSerializedParts (idxs.map Disk.readWriting) Disk.write w2).2.lookup o r =
            none) := by
  have hq' : ∀ r, (reduceSerializedParts.absorb acc.keys acc q).2.lookup r =
      if r ∈ acc then none else q.lookup r := by
    intro r
    rw [reduceSerializedParts.absorb_lookup_snd]
    by_cases hr : r ∈ acc
    · rw [if_pos hr, if_pos (AList.mem_keys.1 hr)]
    · rw [if_neg hr, if_neg (fun h' => hr (AList.mem_keys.2 h'))]
  refine ⟨(reduceSerializedParts.absorb acc.keys acc q).2, ?_, hq', fun r hr => ⟨?_, ?_⟩⟩
  · rw [reduceSerializedParts.foldPart_disk o acc q w h]
    simp
  · rw [reduceSerializedParts.foldPart_disk o acc q w h]
    simp only [Disk.lookup, Function.update_same, Option.some_bind, hq' r, if_pos hr]
  · intro w2 h2 o' acc2 os idxs
    exact ⟨reduceSerializedParts.foldPart_absent o r o' acc2 w2 h2,
      reduceSerializedParts.inner_absent o r os acc2 w2 h2,
      writeMapTabDelim_absent o r acc2 w2 h2,
      reduceSerializedParts_absent o r idxs w2 h2⟩

theorem reduceSerializedParts_fold_rewrites_witness :
    (Disk.ofParts [Part.ofList [("qA", 2), ("qB", 1)], Part.ofList [("qA", 1), ("qE", 1)]]).files 1
        = some (Part.ofList [("qA", 1), ("qE", 1)]) ∧
      ∃ q', (reduceSerializedParts.foldPart (Disk.readWriting 1)
          (Part.ofList [("qA", 2), ("qB", 1)])
          (Disk.ofParts [Part.ofList [("qA", 2), ("qB", 1)],
            Part.ofList [("qA", 1), ("qE", 1)]])).2.files 1 = some q' ∧
        (∀ r, q'.lookup r =
          if r ∈ Part.ofList [("qA", 2), ("qB", 1)] then none
          else (Part.ofList [("qA", 1), ("qE", 1)]).lookup r) ∧
        (∀ r, r ∈ Part.ofList [("qA", 2), ("qB", 1)] →
          (reduceSerializedParts.foldPart (Disk.readWriting 1)
            (Part.ofList [("qA", 2), ("qB", 1)])
            (Disk.ofParts [Part.ofList [("qA", 2), ("qB", 1)],
              Part.ofList [("qA", 1), ("qE", 1)]])).2.lookup 1 r = none ∧
          ∀ w2 : Disk, w2.lookup 1 r = none →
            ∀ (o' : Nat) (acc2 : Part) (os idxs : List Nat),
              (reduceSerializedParts.foldPart (Disk.readWriting o') acc2 w2).2.lookup 1 r =
                none ∧
              (reduceSerializedParts.inner (os.map Disk.readWriting) acc2 w2).2.lookup 1 r =
                none ∧
              (writeMapTabDelim acc2 Disk.write w2).2.lookup 1 r = none ∧
              (reduceSerializedParts (idxs.map Disk.readWriting) Disk.write w2).2.lookup 1 r =
                none) :=
  ⟨rfl, reduceSerializedParts_fold_rewrites _ 1 _ _ rfl⟩


/-! ## The pipeline `countQueries` on a faithful disk -/

theorem dataToParts.saved_disk (ps : List Part) (c : Nat) (w : Disk) :
    (dataToParts.saved Disk.save ps c w).out = w.out ∧
      (∀ k, k ≤ c → (dataToParts.saved Disk.save ps c w).files k = w.files k) ∧
      (∀ j, j < ps.length → (dataToParts.saved Disk.save ps c w).files (j + (c + 1)) = ps[j]?) := by
  induction ps generalizing c w with
  | nil => simp [dataToParts.saved]
  | cons p ps ih =>
    obtain ⟨h1, h2, h3⟩ := ih (c + 1) (Disk.save p (c + 1) w).2
    simp only [dataToParts.saved]
    refine ⟨h1, fun k hk => ?_, fun j hj => ?_⟩
    · rw [h2 k (by omega)]
      exact Function.update_noteq (by omega) _ _
    · cases j with
      | zero =>
        rw [Nat.zero_add, h2 (c + 1) (le_refl _)]
        simp [Disk.save]
      | succ j =>
        have := h3 j (by simpa using hj)
        rw [show j + 1 + (c + 1) = j + (c + 1 + 1) by omega, this]
        simp

theorem frequencyCount.foldl_lookup (r : String) (lines : List String) (m : Part) :
    (lines.foldl (fun m text => m.add text 1) m).lookup r =
      if r ∈ lines then some (m.get r + (lines.count r : Int)) else m.lookup r := by
  induction lines generalizing m with
  | nil => simp
  | cons text rest ih =>
    rw [List.foldl_cons, ih, Part.get_add, Part.lookup_add, List.count_cons]
    by_cases h1 : r = text
    · subst h1
      by_cases h2 : r ∈ rest
      · simp [h2, add_assoc, add_comm]
      · simp [h2, List.count_eq_zero_of_not_mem h2]
    · have h' : (text == r) = false := beq_false_of_ne (Ne.symm h1)
      simp [h1, h']

theorem frequencyCount_lookup (r : String) (lines : List String) :
    (frequencyCount lines).lookup r =
      if r ∈ lines then some (lines.count r : Int) else none := by
  rw [frequencyCount, frequencyCount.foldl_lookup]
  simp [Part.get_empty]

/-- Claim C2. For every sequence of input lines and every limit `> 0`, the
pipeline of `countQueries` on a faithful disk (partition with `dataToParts`,
then `reduceSerializedParts` over the saved parts) succeeds and writes the lines
of a map that equals the single-pass frequency count of the input: every distinct
line is mapped to its number of occurrences, and no other record is reported. -/
theorem countQueries_frequency (lines : List String) (limit : Int) (hl : 0 < limit) :
    ∃ (report : Part) (w' : Disk),
      countQueries (.ok ⟨lines, none⟩) (.ok Disk.tmpDir) (.ok Disk.write) limit Disk.blank =
        (none, w') ∧
      w'.out = report.entries.map (fun e => tabLine e.1 e.2) ∧
      (∀ r, report.lookup r = (frequencyCount lines).lookup r) ∧
      (∀ r, report.lookup r = if r ∈ lines then some (lines.count r : Int) else none) := by
  have hsaved := dataToParts.saved_disk (dataToParts.parts limit lines) 0 Disk.blank
  obtain ⟨report, w', hrun, hout, hmem, hget⟩ :=
    reduceSerializedParts_files
      (dataToParts.saved Disk.save (dataToParts.parts limit lines) 0 Disk.blank)
      (dataToParts.parts limit lines) (fun j => j + 1)
      ((List.nodup_range _).map (fun a b hab => Nat.succ_injective hab))
      (fun j hj => hsaved.2.2 j hj)
  have hlook : ∀ r, report.lookup r =
      if r ∈ lines then some (lines.count r : Int) else none := by
    intro r
    rw [Part.lookup_self, hget, dataToParts.parts_sum limit hl]
    by_cases hr : r ∈ lines
    · rw [if_pos hr, if_pos ((hmem r).2 ((dataToParts.parts_mem limit hl r lines).2 hr))]
    · rw [if_neg hr, if_neg (fun h' => hr ((dataToParts.parts_mem limit hl r lines).1
        ((hmem r).1 h')))]
  refine ⟨report, w', ?_, ?_, fun r => ?_, hlook⟩
  · simp only [countQueries, Disk.tmpDir,
      dataToParts_eq limit Disk.save (fun _ _ _ => rfl) lines Disk.blank]
    rw [← hrun, List.map_map]
    rfl
  · rw [hout, hsaved.1]
    rfl
  · rw [hlook r, frequencyCount_lookup]

theorem countQueries_frequency_witness :
    (0 : Int) < 5 ∧
      ∃ (report : Part) (w' : Disk),
        countQueries (.ok ⟨["qA", "qB", "qC", "qD", "qA", "qA", "qE", "qF"], none⟩)
            (.ok Disk.tmpDir) (.ok Disk.write) 5 Disk.blank = (none, w') ∧
          w'.out = report.entries.map (fun e => tabLine e.1 e.2) ∧
          (∀ r, report.lookup r =
            (frequencyCount ["qA", "qB", "qC", "qD", "qA", "qA", "qE", "qF"]).lookup r) ∧
          (∀ r, report.lookup r =
            if r ∈ ["qA", "qB", "qC", "qD", "qA", "qA", "qE", "qF"] then
              some ((["qA", "qB", "qC", "qD", "qA", "qA", "qE", "qF"].count r : Nat) : Int)
            else none) :=
  ⟨by decide, countQueries_frequency _ 5 (by decide)⟩


/-! ## Inputs that never reach the limit, and the limit one -/

theorem frequencyCount.len_le_foldl (lines : List String) (m : Part) :
    m.len ≤ (lines.foldl (fun m text => m.add text 1) m).len := by
  induction lines generalizing m with
  | nil => exact le_refl _
  | cons text rest ih =>
    refine le_trans ?_ (ih (m.add text 1))
    rw [Part.len_add]
    split_ifs <;> omega

theorem dataToParts.flushed_of_small (L : Int) (hL : 0 < L) (lines : List String) (part : Part)
    (h : ((lines.foldl (fun m text => m.add text 1) part).len : Int) < L) :
    dataToParts.flushed L lines part = ([], lines.foldl (fun m text => m.add text 1) part) := by
  induction lines generalizing part with
  | nil => rfl
  | cons text rest ih =>
    have h1 : ((part.add text 1).len : Int) < L := by
      have := frequencyCount.len_le_foldl rest (part.add text 1)
      rw [List.foldl_cons] at h
      omega
    simp only [dataToParts.flushed, if_pos (show L > 0 from hL), if_neg (not_le.2 h1),
      List.foldl_cons]
    exact ih _ h

theorem frequencyCount_len (lines : List String) :
    (frequencyCount lines).len = lines.dedup.length := by
  unfold Part.len
  apply List.Perm.length_eq
  apply (List.perm_ext_iff_of_nodup (AList.keys_nodup _) (List.nodup_dedup _)).2
  intro r
  rw [← AList.mem_keys, Part.mem_iff_lookup_isSome, frequencyCount_lookup, List.mem_dedup]
  by_cases hr : r ∈ lines <;> simp [hr]

/-- Claim C18. For every non-empty input whose number of distinct lines is smaller
than the limit, `dataToParts` saves exactly one part, numbered 1, equal to the
frequency table of the whole input, and returns 1; for the empty input it saves
nothing and returns 0, whatever the limit. -/
theorem dataToParts_below_limit (lines : List String) (limit : Int) :
    (lines ≠ [] → (lines.dedup.length : Int) < limit →
        dataToParts ⟨lines, none⟩ limit recordSave [] =
          ((1, none), [(frequencyCount lines, 1)])) ∧
      dataToParts ⟨[], none⟩ limit recordSave [] = ((0, none), []) := by
  constructor
  · intro hne hlt
    have hL : 0 < limit := lt_of_le_of_lt (Int.natCast_nonneg _) hlt
    have hf : dataToParts.flushed limit lines ∅ = ([], frequencyCount lines) :=
      dataToParts.flushed_of_small limit hL lines ∅
        (by rw [show lines.foldl (fun m text => m.add text 1) ∅ = frequencyCount lines from rfl,
          frequencyCount_len]; exact hlt)
    have hpos : (frequencyCount lines).len > 0 := by
      rw [frequencyCount_len]
      cases lines with
      | nil => exact absurd rfl hne
      | cons a l => exact List.length_pos_of_mem (List.mem_dedup.2 (List.mem_cons_self a l))
    rw [dataToParts_recordSave]
    simp only [dataToParts.parts, hf, if_pos hpos]
    rfl
  · rw [dataToParts_recordSave]
    simp [dataToParts.parts, dataToParts.flushed, Part.len_empty]

theorem dataToParts_below_limit_witness :
    ["qA", "qB", "qA"] ≠ [] ∧ ((["qA", "qB", "qA"].dedup.length : Nat) : Int) < 10 ∧
      dataToParts ⟨["qA", "qB", "qA"], none⟩ 10 recordSave [] =
        ((1, none), [(frequencyCount ["qA", "qB", "qA"], 1)]) :=
  ⟨by decide, by decide,
    (dataToParts_below_limit ["qA", "qB", "qA"] 10).1 (by decide) (by decide)⟩

theorem Part.add_empty (text : String) : (∅ : Part).add text 1 = AList.singleton text 1 := by
  rw [Part.add, Part.get_empty, zero_add, AList.insert_empty]

theorem dataToParts.flushed_limit_one (lines : List String) :
    dataToParts.flushed 1 lines ∅ = (lines.map fun text => AList.singleton text 1, ∅) := by
  induction lines with
  | nil => rfl
  | cons text rest ih =>
    have h1 : ((Part.len (AList.singleton text (1 : Int)) : Nat) : Int) ≥ 1 := by
      simp [Part.len]
    simp only [dataToParts.flushed, if_pos (show (1 : Int) > 0 by decide), Part.add_empty,
      if_pos h1, ih, List.map_cons]

/-- Claim C19. For limit 1 and every input `l_1, ..., l_n`, `dataToParts` saves
exactly `n` parts, the `k`-th being the singleton `{l_k: 1}` with part number
`k`, in input order; a repeated line gets a part of its own each time. -/
theorem dataToParts_limit_one (r : Reader) :
    (dataToParts r 1 recordSave []).2.map Prod.fst =
        r.lines.map (fun text => AList.singleton text 1) ∧
      (dataToParts r 1 recordSave []).2.map Prod.snd = List.range' 1 r.lines.length := by
  obtain ⟨lines, err⟩ := r
  cases err with
  | some e =>
    rw [dataToParts_recordSave_err, dataToParts.flushed_limit_one]
    simp only
    rw [zip_range_map_fst, zip_range_map_snd, List.length_map]
    exact ⟨rfl, rfl⟩
  | none =>
    rw [dataToParts_recordSave]
    simp only [dataToParts.parts, dataToParts.flushed_limit_one, Part.len_empty,
      gt_iff_lt, lt_self_iff_false, if_false, List.append_nil]
    rw [zip_range_map_fst, zip_range_map_snd, List.length_map]
    exact ⟨rfl, rfl⟩

/-- Claim C12. When scanning ends with an error, `dataToParts` returns that error
and the calls of `save` are exactly those of the scanning loop; the part still
unflushed, which a cleanly ending input would have passed to `save` as one more
call, is not passed. -/
theorem dataToParts_read_error (lines : List String) (L : Int) (e : Error) :
    (dataToParts ⟨lines, some e⟩ L recordSave []).1.2 = some e ∧
      (dataToParts ⟨lines, some e⟩ L recordSave []).2 =
        (dataToParts.loop L recordSave lines ∅ 0 []).2 ∧
      (dataToParts ⟨lines, none⟩ L recordSave []).2 =
        (dataToParts ⟨lines, some e⟩ L recordSave []).2 ++
          (if 0 < (dataToParts.loop L recordSave lines ∅ 0 []).1.1.len then
            [((dataToParts.loop L recordSave lines ∅ 0 []).1.1,
              (dataToParts.loop L recordSave lines ∅ 0 []).1.2.1 + 1)]
          else []) := by
  rw [dataToParts_recordSave_err, dataToParts_recordSave,
    dataToParts.loop_eq L recordSave recordSave_ok, dataToParts.saved_recordSave]
  refine ⟨rfl, by simp, ?_⟩
  simp only [dataToParts.parts, Nat.zero_add]
  split_ifs with h
  · rw [List.length_append, List.length_singleton, List.range'_concat, List.zip_append (by simp)]
    simp [Nat.add_comm]
  · simp

/-- Claim C20 fails on the code. Scanning ends with an error: `dataToParts`
returns that error, yet `countQueries` goes on to reduce the parts saved so far
and returns no error. -/
theorem countQueries_ignores_error :
    (dataToParts ⟨["qA"], some "bufio.Scanner: token too long"⟩ 150 Disk.save Disk.blank).1 =
        (0, some "bufio.Scanner: token too long") ∧
      (countQueries (.ok ⟨["qA"], some "bufio.Scanner: token too long"⟩) (.ok Disk.tmpDir)
        (.ok Disk.write) 150 Disk.blank).1 = none ∧
      (countQueries (.ok ⟨["qA"], some "bufio.Scanner: token too long"⟩) (.ok Disk.tmpDir)
        (.ok Disk.write) 150 Disk.blank).2.out = [] ∧
      (dataToParts ⟨["qA", "qB", "qA"], some "bufio.Scanner: token too long"⟩ 2 Disk.save
        Disk.blank).1 = (1, some "bufio.Scanner: token too long") ∧
      (countQueries (.ok ⟨["qA", "qB", "qA"], some "bufio.Scanner: token too long"⟩)
        (.ok Disk.tmpDir) (.ok Disk.write) 2 Disk.blank).1 = none ∧
      (countQueries (.ok ⟨["qA", "qB", "qA"], some "bufio.Scanner: token too long"⟩)
        (.ok Disk.tmpDir) (.ok Disk.write) 2 Disk.blank).2.out = ["qB\t1\n", "qA\t1\n"] := by
  decide

/-! ## `dataToParts` with a `save` that fails -/

theorem zip_range_take (ps : List Part) (c m : Nat) :
    (ps.zip (List.range' c ps.length)).take m =
      (ps.take m).zip (List.range' c (ps.take m).length) := by
  induction ps generalizing c m with
  | nil => simp
  | cons p ps ih =>
    cases m with
    | zero => simp
    | succ m => simp [List.range'_succ, ih]

theorem dataToParts.loop_failingSave_miss (L : Int) (k : Nat) (e : Error) (lines : List String)
    (part : Part) (c : Nat) (w : SaveLog) (hw : w.calls.length = c)
    (hk : k ≤ c ∨ c + (dataToParts.flushed L lines part).1.length < k) :
    dataToParts.loop L (failingSave k e) lines part c w =
      (((dataToParts.flushed L lines part).2, c + (dataToParts.flushed L lines part).1.length,
          none),
        ⟨w.calls ++ (dataToParts.flushed L lines part).1.zip
            (List.range' (c + 1) (dataToParts.flushed L lines part).1.length),
          w.saved ++ (dataToParts.flushed L lines part).1.zip
            (List.range' (c + 1) (dataToParts.flushed L lines part).1.length)⟩) := by
  induction lines generalizing part c w with
  | nil => simp [dataToParts.loop, dataToParts.flushed]
  | cons text rest ih =>
    simp only [dataToParts.loop, dataToParts.flushed] at hk ⊢
    generalize (if L > 0 then part.add text 1 else part) = q at hk ⊢
    by_cases h : (q.len : Int) ≥ L
    · simp only [if_pos h, List.length_cons] at hk ⊢
      have hne : ¬ w.calls.length + 1 = k := by omega
      simp only [failingSave, if_neg hne]
      rw [ih ∅ (c + 1) _ (by simp [hw]) (by omega)]
      simp [List.range'_succ, Nat.add_assoc, Nat.add_comm 1]
    · simp only [if_neg h] at hk ⊢
      exact ih q c w hw hk

theorem dataToParts.loop_failingSave_hit (L : Int) (e : Error) (lines : List String)
    (part : Part) (c j : Nat) (w : SaveLog) (hw : w.calls.length = c)
    (hj : j < (dataToParts.flushed L lines part).1.length) :
    ∃ p, dataToParts.loop L (failingSave (c + 1 + j) e) lines part c w =
      ((p, c + 1 + j, some e),
        ⟨w.calls ++ ((dataToParts.flushed L lines part).1.zip
            (List.range' (c + 1) (dataToParts.flushed L lines part).1.length)).take (j + 1),
          w.saved ++ ((dataToParts.flushed L lines part).1.zip
            (List.range' (c + 1) (dataToParts.flushed L lines part).1.length)).take j⟩) := by
  induction lines generalizing part c j w with
  | nil => simp [dataToParts.flushed] at hj
  | cons text rest ih =>
    simp only [dataToParts.loop, dataToParts.flushed] at hj ⊢
    generalize (if L > 0 then part.add text 1 else part) = q at hj ⊢
    by_cases h : (q.len : Int) ≥ L
    · simp only [if_pos h, List.length_cons] at hj ⊢
      cases j with
      | zero =>
        refine ⟨q, ?_⟩
        simp [failingSave, hw, List.range'_succ]
      | succ j =>
        have hne : ¬ w.calls.length + 1 = c + 1 + (j + 1) := by omega
        simp only [failingSave, if_neg hne]
        obtain ⟨p, hp⟩ := ih ∅ (c + 1) j ⟨w.calls ++ [(q, c + 1)], w.saved ++ [(q, c + 1)]⟩
          (by simp [hw]) (by omega)
        refine ⟨p, ?_⟩
        rw [show c + 1 + (j + 1) = c + 1 + 1 + j by omega, hp]
        simp [List.range'_succ]
    · simp only [if_neg h] at hj ⊢
      exact ih q c j w hw hj

theorem zip_range_concat (fs : List Part) (p : Part) (c : Nat) :
    (fs ++ [p]).zip (List.range' c (fs.length + 1)) =
      fs.zip (List.range' c fs.length) ++ [(p, fs.length + c)] := by
  rw [List.range'_concat, List.zip_append (by simp)]
  simp [Nat.add_comm]

theorem dataToParts.parts_calls_take (L : Int) (lines : List String) (m : Nat)
    (hm : m ≤ (dataToParts.flushed L lines ∅).1.length) :
    ((dataToParts.parts L lines).zip (List.range' 1 (dataToParts.parts L lines).length)).take m =
      ((dataToParts.flushed L lines ∅).1.zip
        (List.range' 1 (dataToParts.flushed L lines ∅).1.length)).take m := by
  rw [zip_range_take, zip_range_take, dataToParts.parts, List.take_append_of_le_length hm]

theorem dataToParts_failingSave_miss (r : Reader) (L : Int) (k : Nat) (e : Error)
    (hk : k = 0 ∨ (dataToParts r L recordSave []).2.length < k) :
    dataToParts r L (failingSave k e) ⟨[], []⟩ =
      ((dataToParts r L recordSave []).1,
        ⟨(dataToParts r L recordSave []).2, (dataToParts r L recordSave []).2⟩) := by
  obtain ⟨lines, err⟩ := r
  cases err with
  | some e' =>
    rw [dataToParts_recordSave_err] at hk ⊢
    simp only [List.length_zip, List.length_range', min_self] at hk
    unfold dataToParts
    rw [dataToParts.loop_failingSave_miss L k e lines ∅ 0 ⟨[], []⟩ rfl (by omega)]
    simp
  | none =>
    rw [dataToParts_recordSave] at hk ⊢
    simp only [List.length_zip, List.length_range', min_self] at hk
    have hlen : (dataToParts.flushed L lines ∅).1.length ≤ (dataToParts.parts L lines).length := by
      simp [dataToParts.parts]
    unfold dataToParts
    rw [dataToParts.loop_failingSave_miss L k e lines ∅ 0 ⟨[], []⟩ rfl (by omega)]
    simp only [dataToParts.parts] at hk ⊢
    split_ifs at hk ⊢ with h
    · have hne : ¬ (dataToParts.flushed L lines ∅).1.length + 1 = k := by
        simp only [List.length_append, List.length_singleton] at hk
        omega
      simp [failingSave, hne, zip_range_concat]
    · simp

theorem dataToParts_failingSave_hit (r : Reader) (L : Int) (j : Nat) (e : Error)
    (hj : j < (dataToParts r L recordSave []).2.length) :
    dataToParts r L (failingSave (j + 1) e) ⟨[], []⟩ =
      ((j + 1, some e),
        ⟨(dataToParts r L recordSave []).2.take (j + 1),
          (dataToParts r L recordSave []).2.take j⟩) := by
  obtain ⟨lines, err⟩ := r
  have hk : 0 + 1 + j = j + 1 := by omega
  cases err with
  | some e' =>
    rw [dataToParts_recordSave_err] at hj ⊢
    simp only [List.length_zip, List.length_range', min_self] at hj
    obtain ⟨p, hp⟩ := dataToParts.loop_failingSave_hit L e lines ∅ 0 j ⟨[], []⟩ rfl hj
    rw [hk] at hp
    unfold dataToParts
    rw [hp]
    simp
  | none =>
    rw [dataToParts_recordSave] at hj ⊢
    simp only [List.length_zip, List.length_range', min_self] at hj
    by_cases hlt : j < (dataToParts.flushed L lines ∅).1.length
    · obtain ⟨p, hp⟩ := dataToParts.loop_failingSave_hit L e lines ∅ 0 j ⟨[], []⟩ rfl hlt
      rw [hk] at hp
      simp only [dataToParts.parts_calls_take L lines (j + 1) hlt,
        dataToParts.parts_calls_take L lines j (le_of_lt hlt)]
      unfold dataToParts
      rw [hp]
      simp
    · simp only [dataToParts.parts] at hj ⊢
      split_ifs at hj ⊢ with h
      · simp only [List.length_append, List.length_singleton] at hj
        have hje : j = (dataToParts.flushed L lines ∅).1.length := by omega
        unfold dataToParts
        rw [dataToParts.loop_failingSave_miss L (j + 1) e lines ∅ 0 ⟨[], []⟩ rfl (by omega)]
        subst hje
        simp [h, failingSave, zip_range_concat]
      · simp only [List.append_nil] at hj
        exact absurd hj hlt

theorem dataToParts.flushed_prefix (L : Int) (lines : List String) (part : Part) (j : Nat)
    (hj : j < (dataToParts.flushed L lines part).1.length) :
    ∃ pre, pre <+: lines ∧
      dataToParts.flushed L pre part = ((dataToParts.flushed L lines part).1.take (j + 1), ∅) := by
  induction lines generalizing part j with
  | nil => simp [dataToParts.flushed] at hj
  | cons text rest ih =>
    simp only [dataToParts.flushed] at hj ⊢
    by_cases h : ((if L > 0 then part.add text 1 else part).len : Int) ≥ L
    · simp only [if_pos h, List.length_cons] at hj ⊢
      cases j with
      | zero =>
        refine ⟨[text], by simp, ?_⟩
        simp [dataToParts.flushed, h]
      | succ j =>
        obtain ⟨pre, hpre, hfl⟩ := ih ∅ j (by omega)
        refine ⟨text :: pre, (List.prefix_cons_inj text).2 hpre, ?_⟩
        simp [dataToParts.flushed, h, hfl]
    · simp only [if_neg h] at hj ⊢
      obtain ⟨pre, hpre, hfl⟩ := ih _ j hj
      refine ⟨text :: pre, (List.prefix_cons_inj text).2 hpre, ?_⟩
      simp [dataToParts.flushed, h, hfl]

theorem dataToParts_recordSave_count (r : Reader) (L : Int) :
    (dataToParts r L recordSave []).1.1 = (dataToParts r L recordSave []).2.length := by
  obtain ⟨lines, err⟩ := r
  cases err with
  | some e => rw [dataToParts_recordSave_err]; simp
  | none => rw [dataToParts_recordSave]; simp

theorem dataToParts_calls_prefix (r : Reader) (L : Int) (j : Nat)
    (hj : j < (dataToParts r L recordSave []).2.length) :
    ∃ pre, pre <+: r.lines ∧
      (dataToParts ⟨pre, none⟩ L recordSave []).2 =
        (dataToParts r L recordSave []).2.take (j + 1) := by
  obtain ⟨lines, err⟩ := r
  have hpre : ∀ pre, dataToParts.flushed L pre ∅ =
      ((dataToParts.flushed L lines ∅).1.take (j + 1), ∅) →
      (dataToParts ⟨pre, none⟩ L recordSave []).2 =
        ((dataToParts.flushed L lines ∅).1.zip
          (List.range' 1 (dataToParts.flushed L lines ∅).1.length)).take (j + 1) := by
    intro pre hfl
    rw [dataToParts_recordSave, zip_range_take]
    simp [dataToParts.parts, hfl, Part.len_empty]
  cases err with
  | some e' =>
    rw [dataToParts_recordSave_err] at hj ⊢
    simp only [List.length_zip, List.length_range', min_self] at hj
    obtain ⟨pre, hp, hfl⟩ := dataToParts.flushed_prefix L lines ∅ j hj
    exact ⟨pre, hp, hpre pre hfl⟩
  | none =>
    by_cases hlt : j < (dataToParts.flushed L lines ∅).1.length
    · obtain ⟨pre, hp, hfl⟩ := dataToParts.flushed_prefix L lines ∅ j hlt
      refine ⟨pre, hp, ?_⟩
      rw [hpre pre hfl, dataToParts_recordSave, dataToParts.parts_calls_take L lines (j + 1) hlt]
    · refine ⟨lines, List.prefix_refl _, ?_⟩
      rw [List.take_of_length_le]
      rw [dataToParts_recordSave] at hj ⊢
      simp only [List.length_zip, List.length_range', min_self] at hj ⊢
      have : (dataToParts.parts L lines).length ≤
          (dataToParts.flushed L lines ∅).1.length + 1 := by
        simp only [dataToParts.parts, List.length_append]
        split_ifs <;> simp
      omega

/-- Claim C11. If an invocation of `save` returns an error (the `(j+1)`-th one,
which a run with a never-failing `save` on the same input reaches), `dataToParts`
returns that error and makes no further invocation: the calls made are the first
`j + 1` calls of the never-failing run, the parts stored are its first `j`, and
the calls made are exactly those of a never-failing run on a prefix of the input. -/
theorem dataToParts_save_error (r : Reader) (L : Int) (j : Nat) (e : Error)
    (hj : j < (dataToParts r L recordSave []).2.length) :
    dataToParts r L (failingSave (j + 1) e) ⟨[], []⟩ =
        ((j + 1, some e),
          ⟨(dataToParts r L recordSave []).2.take (j + 1),
            (dataToParts r L recordSave []).2.take j⟩) ∧
      ∃ pre, pre <+: r.lines ∧
        (dataToParts ⟨pre, none⟩ L recordSave []).2 =
          (dataToParts r L recordSave []).2.take (j + 1) :=
  ⟨dataToParts_failingSave_hit r L j e hj, dataToParts_calls_prefix r L j hj⟩

theorem dataToParts_save_error_witness :
    1 < (dataToParts ⟨["qA", "qB", "qC"], none⟩ 1 recordSave []).2.length ∧
      dataToParts ⟨["qA", "qB", "qC"], none⟩ 1 (failingSave (1 + 1) "disk full") ⟨[], []⟩ =
        ((1 + 1, some "disk full"),
          ⟨(dataToParts ⟨["qA", "qB", "qC"], none⟩ 1 recordSave []).2.take (1 + 1),
            (dataToParts ⟨["qA", "qB", "qC"], none⟩ 1 recordSave []).2.take 1⟩) ∧
      ∃ pre, pre <+: ["qA", "qB", "qC"] ∧
        (dataToParts ⟨pre, none⟩ 1 recordSave []).2 =
          (dataToParts ⟨["qA", "qB", "qC"], none⟩ 1 recordSave []).2.take (1 + 1) :=
  ⟨by decide, dataToParts_save_error ⟨["qA", "qB", "qC"], none⟩ 1 1 "disk full" (by decide)⟩

/-- Claim C17 as stated fails. The first invocation of `save` fails: nothing has
been saved, yet the returned count is 1. -/
theorem dataToParts_count_not_saved :
    (dataToParts ⟨["qA"], none⟩ 1 (failingSave 1 "disk full") ⟨[], []⟩).1 =
        (1, some "disk full") ∧
      (dataToParts ⟨["qA"], none⟩ 1 (failingSave 1 "disk full") ⟨[], []⟩).2.saved.length = 0 ∧
      (dataToParts ⟨["qA"], none⟩ 1 (failingSave 1 "disk full") ⟨[], []⟩).1.1 ≠
        (dataToParts ⟨["qA"], none⟩ 1 (failingSave 1 "disk full") ⟨[], []⟩).2.saved.length := by
  decide

/-- Claim C17, amended. On every return path of `dataToParts` the returned count
is the number of invocations of `save` made.  When no invocation fails, every
call has been saved, so the count is the number of parts saved; when the `k`-th
invocation fails, the error is returned and the count, which includes the failed
invocation, is one more than the number of parts saved. -/
theorem dataToParts_count_calls (r : Reader) (L : Int) (k : Nat) (e : Error) :
    (dataToParts r L (failingSave k e) ⟨[], []⟩).1.1 =
        (dataToParts r L (failingSave k e) ⟨[], []⟩).2.calls.length ∧
      (1 ≤ k ∧ k ≤ (dataToParts r L recordSave []).2.length →
        (dataToParts r L (failingSave k e) ⟨[], []⟩).1.2 = some e ∧
        (dataToParts r L (failingSave k e) ⟨[], []⟩).2.saved.length + 1 =
          (dataToParts r L (failingSave k e) ⟨[], []⟩).1.1) ∧
      (¬ (1 ≤ k ∧ k ≤ (dataToParts r L recordSave []).2.length) →
        (dataToParts r L (failingSave k e) ⟨[], []⟩).2.saved =
          (dataToParts r L (failingSave k e) ⟨[], []⟩).2.calls) := by
  by_cases hk : 1 ≤ k ∧ k ≤ (dataToParts r L recordSave []).2.length
  · obtain ⟨j, rfl⟩ : ∃ j, k = j + 1 := ⟨k - 1, by omega⟩
    have hj : j < (dataToParts r L recordSave []).2.length := by omega
    rw [dataToParts_failingSave_hit r L j e hj]
    refine ⟨?_, fun _ => ⟨rfl, ?_⟩, fun h => absurd hk h⟩
    · simp only [List.length_take]
      omega
    · simp only [List.length_take]
      omega
  · rw [dataToParts_failingSave_miss r L k e (by omega)]
    exact ⟨dataToParts_recordSave_count r L, fun h => absurd h hk, fun _ => rfl⟩

/-! ## Traces of `reduceSerializedParts` on storage that may fail -/

theorem openCount_append (sel : Nat → Bool) (s t : List Event) :
    openCount sel (s ++ t) = openCount sel s + openCount sel t := by
  simp [openCount]

theorem bounded_append {sel : Nat → Bool} {s t : List Event} (hs : Bounded sel s)
    (h0 : openCount sel s = 0) (ht : Bounded sel t) : Bounded sel (s ++ t) := by
  intro k
  rw [List.take_append_eq_append_take, openCount_append]
  by_cases hk : k ≤ s.length
  · have : k - s.length = 0 := by omega
    rw [this, List.take_zero]
    have := hs k
    simp only [openCount, List.map_nil, List.sum_nil, add_zero] at this ⊢
    exact this
  · rw [List.take_of_length_le (by omega), h0, zero_add]
    exact ht _

theorem clean_append {s t : List Event} (hs : Clean s) (ht : Clean t) : Clean (s ++ t) := by
  intro ev hev
  rcases List.mem_append.1 hev with h | h
  · exact hs ev h
  · exact ht ev h

theorem aborted_append_left {s t : List Event} {e : Error} (hs : Clean s) (ht : Aborted t e) :
    Aborted (s ++ t) e := by
  obtain ⟨pre, ev, post, rfl, hpre, hev, herr, hpost⟩ := ht
  exact ⟨s ++ pre, ev, post, by simp, clean_append hs hpre, hev, herr, hpost⟩

theorem runInv_append {sel : Nat → Bool} {s t : List Event} {res : Option Error}
    (hs : RunInv sel none s) (ht : RunInv sel res t) : RunInv sel res (s ++ t) := by
  obtain ⟨hb, h0, -⟩ := hs
  obtain ⟨h0s, hcs⟩ := h0 rfl
  obtain ⟨hbt, h0t, hct⟩ := ht
  refine ⟨bounded_append hb h0s hbt, fun hres => ?_, ?_⟩
  · obtain ⟨h1, h2⟩ := h0t hres
    exact ⟨by rw [openCount_append, h0s, h1, add_zero], clean_append hcs h2⟩
  · rcases hct with h | ⟨e, he, ha⟩
    · exact Or.inl (clean_append hcs h)
    · exact Or.inr ⟨e, he, aborted_append_left hcs ha⟩

theorem Event.not_aborting_of_ok (op : Op) (n : Nat) : ¬ (Event.mk op n none).aborting := by
  simp [Event.aborting]

theorem Event.not_aborting_close (n : Nat) (c : Option Error) :
    ¬ (Event.mk .close n c).aborting := by
  simp [Event.aborting]

theorem Event.not_aborting_write (n : Nat) (c : Option Error) :
    ¬ (Event.mk .write n c).aborting := by
  simp [Event.aborting]

theorem RunInv.acquire_failed (sel : Nat → Bool) (n : Nat) (e : Error) :
    RunInv sel (some e) [⟨.acquire, n, some e⟩] := by
  refine ⟨fun k => ?_, by simp, Or.inr ⟨e, rfl, [], _, [], rfl, by simp [Clean], ?_, rfl, by simp⟩⟩
  · rcases k with _ | k <;> cases h : sel n <;> simp [openCount, Event.opens, h]
  · simp [Event.aborting]

theorem RunInv.decode_failed (sel : Nat → Bool) (n : Nat) (e : Error) :
    RunInv sel (some e) [⟨.acquire, n, none⟩, ⟨.decode, n, some e⟩] := by
  refine ⟨fun k => ?_, by simp,
    Or.inr ⟨e, rfl, [⟨.acquire, n, none⟩], _, [], rfl, ?_, ?_, rfl, by simp⟩⟩
  · rcases k with _ | _ | k <;> cases h : sel n <;> simp [openCount, Event.opens, h]
  · simp [Clean, Event.aborting]
  · simp [Event.aborting]

theorem RunInv.decode_failed_closed (sel : Nat → Bool) (n : Nat) (e : Error)
    (c : Option Error) :
    RunInv sel (some e) [⟨.acquire, n, none⟩, ⟨.decode, n, some e⟩, ⟨.close, n, c⟩] := by
  refine ⟨fun k => ?_, by simp,
    Or.inr ⟨e, rfl, [⟨.acquire, n, none⟩], _, [⟨.close, n, c⟩], rfl, ?_, ?_, rfl, by simp⟩⟩
  · rcases k with _ | _ | _ | k <;> cases h : sel n <;> simp [openCount, Event.opens, h]
  · simp [Clean, Event.aborting]
  · simp [Event.aborting]

theorem RunInv.clear_failed (sel : Nat → Bool) (n : Nat) (e : Error) :
    RunInv sel (some e) [⟨.acquire, n, none⟩, ⟨.decode, n, none⟩, ⟨.clear, n, some e⟩] := by
  refine ⟨fun k => ?_, by simp,
    Or.inr ⟨e, rfl, [⟨.acquire, n, none⟩, ⟨.decode, n, none⟩], _, [], rfl, ?_, ?_, rfl,
      by simp⟩⟩
  · rcases k with _ | _ | _ | k <;> cases h : sel n <;> simp [openCount, Event.opens, h]
  · simp [Clean, Event.aborting]
  · simp [Event.aborting]

theorem RunInv.encode_failed (sel : Nat → Bool) (n : Nat) (e : Error) (c : Option Error) :
    RunInv sel (some e) [⟨.acquire, n, none⟩, ⟨.decode, n, none⟩, ⟨.clear, n, none⟩,
      ⟨.encode, n, some e⟩, ⟨.close, n, c⟩] := by
  refine ⟨fun k => ?_, by simp,
    Or.inr ⟨e, rfl, [⟨.acquire, n, none⟩, ⟨.decode, n, none⟩, ⟨.clear, n, none⟩], _,
      [⟨.close, n, c⟩], rfl, ?_, ?_, rfl, by simp⟩⟩
  · rcases k with _ | _ | _ | _ | _ | k <;> cases h : sel n <;>
      simp [openCount, Event.opens, h]
  · simp [Clean, Event.aborting]
  · simp [Event.aborting]

theorem RunInv.folded (sel : Nat → Bool) (n : Nat) (c : Option Error) :
    RunInv sel none [⟨.acquire, n, none⟩, ⟨.decode, n, none⟩, ⟨.clear, n, none⟩,
      ⟨.encode, n, none⟩, ⟨.close, n, c⟩] := by
  have hc : Clean [⟨.acquire, n, none⟩, ⟨.decode, n, none⟩, ⟨.clear, n, none⟩,
      ⟨.encode, n, none⟩, ⟨.close, n, c⟩] := by
    simp [Clean, Event.aborting]
  refine ⟨fun k => ?_, fun _ => ⟨?_, hc⟩, Or.inl hc⟩
  · rcases k with _ | _ | _ | _ | _ | k <;> cases h : sel n <;>
      simp [openCount, Event.opens, h]
  · cases h : sel n <;> simp [openCount, Event.opens, h]

theorem RunInv.loaded (sel : Nat → Bool) (n : Nat) :
    RunInv sel none [⟨.acquire, n, none⟩, ⟨.decode, n, none⟩, ⟨.close, n, none⟩] := by
  have hc : Clean [⟨.acquire, n, none⟩, ⟨.decode, n, none⟩, ⟨.close, n, none⟩] := by
    simp [Clean, Event.aborting]
  refine ⟨fun k => ?_, fun _ => ⟨?_, hc⟩, Or.inl hc⟩
  · rcases k with _ | _ | _ | k <;> cases h : sel n <;> simp [openCount, Event.opens, h]
  · cases h : sel n <;> simp [openCount, Event.opens, h]

theorem RunInv.close_failed (sel : Nat → Bool) (n : Nat) (e : Error) :
    RunInv sel (some e) [⟨.acquire, n, none⟩, ⟨.decode, n, none⟩, ⟨.close, n, some e⟩] := by
  have hc : Clean [⟨.acquire, n, none⟩, ⟨.decode, n, none⟩, ⟨.close, n, some e⟩] := by
    simp [Clean, Event.aborting]
  refine ⟨fun k => ?_, by simp, Or.inl hc⟩
  rcases k with _ | _ | _ | k <;> cases h : sel n <;> simp [openCount, Event.opens, h]

theorem reduceSerializedParts.foldPart_traced (sel : Nat → Bool) (fail : Nat → Option Error)
    (n : Nat) (acc : Part) (w : Traced) :
    ∃ seg, (reduceSerializedParts.foldPart (Traced.readWriting fail n) acc w).2.log =
        w.log ++ seg ∧
      RunInv sel (errorOf (reduceSerializedParts.foldPart (Traced.readWriting fail n) acc w).1)
        seg := by
  cases h0 : fail w.log.length with
  | some e =>
    simp [reduceSerializedParts.foldPart, Traced.readWriting, h0, errorOf]
    exact RunInv.acquire_failed sel n e
  | none =>
    cases h1 : fail (w.log.length + 1) with
    | some e =>
      cases h2 : fail (w.log.length + 1 + 1) <;>
        simp [reduceSerializedParts.foldPart, Traced.readWriting, deserializeMap, Traced.handle,
          Traced.step, h0, h1, h2, errorOf] <;>
        exact RunInv.decode_failed_closed sel n e _
    | none =>
      cases hf : w.disk.files n with
      | none =>
        cases h2 : fail (w.log.length + 1 + 1) <;>
          simp [reduceSerializedParts.foldPart, Traced.readWriting, deserializeMap,
            Traced.handle, Traced.step, h0, h1, h2, hf, errorOf] <;>
          exact RunInv.decode_failed_closed sel n _ _
      | some q =>
        cases h2 : fail (w.log.length + 1 + 1) with
        | some e =>
          simp [reduceSerializedParts.foldPart, Traced.readWriting, deserializeMap,
            Traced.handle, Traced.step, h0, h1, h2, hf, errorOf]
          exact RunInv.clear_failed sel n e
        | none =>
          cases h3 : fail (w.log.length + 1 + 1 + 1) with
          | some e =>
            cases h4 : fail (w.log.length + 1 + 1 + 1 + 1) <;>
              simp [reduceSerializedParts.foldPart, Traced.readWriting, deserializeMap,
                serializeMap, Traced.handle, Traced.step, h0, h1, h2, h3, h4, hf, errorOf] <;>
              exact RunInv.encode_failed sel n e _
          | none =>
            cases h4 : fail (w.log.length + 1 + 1 + 1 + 1) <;>
              simp [reduceSerializedParts.foldPart, Traced.readWriting, deserializeMap,
                serializeMap, Traced.handle, Traced.step, h0, h1, h2, h3, h4, hf, errorOf] <;>
              exact RunInv.folded sel n _

theorem openCount_of_opens_zero (sel : Nat → Bool) (l : List Event)
    (h : ∀ ev ∈ l, ev.opens = 0) : openCount sel l = 0 := by
  induction l with
  | nil => rfl
  | cons ev l ih =>
    have h1 := h ev (List.mem_cons_self _ _)
    have h2 := ih fun ev' hev' => h ev' (List.mem_cons_of_mem _ hev')
    simp only [openCount, List.map_cons, List.sum_cons] at h2 ⊢
    rw [h2, h1]
    simp

theorem RunInv.of_writes (sel : Nat → Bool) (res : Option Error) (seg : List Event)
    (h : ∀ ev ∈ seg, ev.op = .write) : RunInv sel res seg := by
  have hz : ∀ l : List Event, (∀ ev ∈ l, ev.op = .write) → openCount sel l = 0 := by
    intro l hl
    apply openCount_of_opens_zero
    intro ev hev
    simp [Event.opens, hl ev hev]
  have hc : Clean seg := by
    intro ev hev
    simp [Event.aborting, h ev hev]
  refine ⟨fun k => ?_, fun _ => ⟨hz seg h, hc⟩, Or.inl hc⟩
  rw [hz _ fun ev hev => h ev (List.mem_of_mem_take hev)]
  exact ⟨le_refl _, by decide⟩

theorem RunInv.nil (sel : Nat → Bool) : RunInv sel none [] :=
  RunInv.of_writes sel none [] (by simp)

theorem reduceSerializedParts.inner_traced (sel : Nat → Bool) (fail : Nat → Option Error)
    (os : List Nat) (acc : Part) (w : Traced) :
    ∃ seg, (reduceSerializedParts.inner (os.map (Traced.readWriting fail)) acc w).2.log =
        w.log ++ seg ∧
      RunInv sel
        (errorOf (reduceSerializedParts.inner (os.map (Traced.readWriting fail)) acc w).1)
        seg := by
  induction os generalizing acc w with
  | nil => exact ⟨[], by simp [reduceSerializedParts.inner], RunInv.nil sel⟩
  | cons o os ih =>
    obtain ⟨s1, hl1, hi1⟩ := reduceSerializedParts.foldPart_traced sel fail o acc w
    simp only [List.map_cons, reduceSerializedParts.inner]
    rcases hfp : reduceSerializedParts.foldPart (Traced.readWriting fail o) acc w with ⟨res, w1⟩
    rw [hfp] at hl1 hi1
    cases res with
    | error e => exact ⟨s1, hl1, hi1⟩
    | ok acc1 =>
      obtain ⟨s2, hl2, hi2⟩ := ih acc1 w1
      refine ⟨s1 ++ s2, ?_, runInv_append hi1 hi2⟩
      simp only at hl1 ⊢
      rw [hl2, hl1, List.append_assoc]

theorem writeMapTabDelim.loop_traced (fail : Nat → Option Error)
    (es : List (Sigma fun _ : String => Int)) (w : Traced) :
    ∃ seg, (writeMapTabDelim.loop (Traced.write fail) es w).2.log = w.log ++ seg ∧
      ∀ ev ∈ seg, ev.op = .write := by
  induction es generalizing w with
  | nil => exact ⟨[], by simp [writeMapTabDelim.loop], by simp⟩
  | cons kv es ih =>
    obtain ⟨k, v⟩ := kv
    cases h0 : fail w.log.length with
    | some e =>
      exact ⟨[⟨.write, 0, some e⟩],
        by simp [writeMapTabDelim.loop, Traced.write, Traced.step, h0], by simp⟩
    | none =>
      obtain ⟨s, hl, hs⟩ := ih ⟨⟨w.disk.files, w.disk.out ++ [tabLine k v]⟩,
        w.log ++ [⟨.write, 0, none⟩]⟩
      refine ⟨⟨.write, 0, none⟩ :: s, ?_, ?_⟩
      · simp only [writeMapTabDelim.loop, Traced.write, Traced.step, h0]
        rw [hl]
        simp
      · intro ev hev
        rcases List.mem_cons.1 hev with rfl | h
        · rfl
        · exact hs ev h

theorem reduceSerializedParts_traced (sel : Nat → Bool) (fail : Nat → Option Error)
    (idxs : List Nat) (w : Traced) :
    ∃ seg, (reduceSerializedParts (idxs.map (Traced.readWriting fail)) (Traced.write fail)
        w).2.log = w.log ++ seg ∧
      RunInv sel
        (reduceSerializedParts (idxs.map (Traced.readWriting fail)) (Traced.write fail) w).1
        seg := by
  induction idxs generalizing w with
  | nil => exact ⟨[], by simp [reduceSerializedParts], RunInv.nil sel⟩
  | cons i rest ih =>
    cases h0 : fail w.log.length with
    | some e =>
      exact ⟨_, by simp [reduceSerializedParts, Traced.readWriting, h0]; rfl,
        by simpa [reduceSerializedParts, Traced.readWriting, h0]
          using RunInv.acquire_failed sel i e⟩
    | none =>
      cases h1 : fail (w.log.length + 1) with
      | some e =>
        refine ⟨[⟨.acquire, i, none⟩, ⟨.decode, i, some e⟩], ?_, ?_⟩
        · simp [reduceSerializedParts, Traced.readWriting, deserializeMap, Traced.handle, h0, h1]
        · simpa [reduceSerializedParts, Traced.readWriting, deserializeMap, Traced.handle, h0,
            h1] using RunInv.decode_failed sel i e
      | none =>
        cases hf : w.disk.files i with
        | none =>
          refine ⟨[⟨.acquire, i, none⟩, ⟨.decode, i, some "EOF"⟩], ?_, ?_⟩
          · simp [reduceSerializedParts, Traced.readWriting, deserializeMap, Traced.handle, h0,
              h1, hf]
          · simpa [reduceSerializedParts, Traced.readWriting, deserializeMap, Traced.handle, h0,
              h1, hf] using RunInv.decode_failed sel i "EOF"
        | some p =>
          cases h2 : fail (w.log.length + 1 + 1) with
          | some e =>
            refine ⟨[⟨.acquire, i, none⟩, ⟨.decode, i, none⟩, ⟨.close, i, some e⟩], ?_, ?_⟩
            · simp [reduceSerializedParts, Traced.readWriting, deserializeMap, Traced.handle,
                Traced.step, h0, h1, h2, hf]
            · simpa [reduceSerializedParts, Traced.readWriting, deserializeMap, Traced.handle,
                Traced.step, h0, h1, h2, hf] using RunInv.close_failed sel i e
          | none =>
            have hrun : reduceSerializedParts ((i :: rest).map (Traced.readWriting fail))
                (Traced.write fail) w =
                match reduceSerializedParts.inner (rest.map (Traced.readWriting fail)) p
                    ⟨w.disk, w.log ++ [⟨.acquire, i, none⟩, ⟨.decode, i, none⟩,
                      ⟨.close, i, none⟩]⟩ with
                | (.error err, w) => (some err, w)
                | (.ok resultingPart, w) =>
                  match writeMapTabDelim resultingPart (Traced.write fail) w with
                  | (some err, w) => (some err, w)
                  | (none, w) =>
                    reduceSerializedParts (rest.map (Traced.readWriting fail))
                      (Traced.write fail) w := by
              simp [reduceSerializedParts, Traced.readWriting, deserializeMap, Traced.handle,
                Traced.step, h0, h1, h2, hf]
              generalize reduceSerializedParts.inner _ _ _ = x
              rcases x with ⟨_ | acc1, w1⟩
              · rfl
              · simp only []
                generalize writeMapTabDelim _ _ _ = y
                rcases y with ⟨_ | _, _⟩ <;> rfl
            rw [hrun]
            obtain ⟨s1, hl1, hi1⟩ := reduceSerializedParts.inner_traced sel fail rest p
              ⟨w.disk, w.log ++ [⟨.acquire, i, none⟩, ⟨.decode, i, none⟩, ⟨.close, i, none⟩]⟩
            rcases hin : reduceSerializedParts.inner (rest.map (Traced.readWriting fail)) p
              ⟨w.disk, w.log ++ [⟨.acquire, i, none⟩, ⟨.decode, i, none⟩, ⟨.close, i, none⟩]⟩
              with ⟨res, w1⟩
            rw [hin] at hl1 hi1
            try simp only [hin]
            simp only at hl1
            cases res with
            | error e =>
              refine ⟨[⟨.acquire, i, none⟩, ⟨.decode, i, none⟩, ⟨.close, i, none⟩] ++ s1, ?_,
                runInv_append (RunInv.loaded sel i) hi1⟩
              simp only [hl1, List.append_assoc]
            | ok acc1 =>
              obtain ⟨s2, hl2, hw2⟩ := writeMapTabDelim.loop_traced fail acc1.entries w1
              simp only [writeMapTabDelim]
              rcases hwr : writeMapTabDelim.loop (Traced.write fail) acc1.entries w1
                with ⟨wres, w2⟩
              rw [hwr] at hl2
              try simp only [hwr]
              simp only at hl2
              cases wres with
              | some e =>
                refine ⟨[⟨.acquire, i, none⟩, ⟨.decode, i, none⟩, ⟨.close, i, none⟩] ++
                  (s1 ++ s2), ?_,
                  runInv_append (RunInv.loaded sel i)
                    (runInv_append hi1 (RunInv.of_writes sel _ s2 hw2))⟩
                simp only [hl2, hl1, List.append_assoc]
              | none =>
                obtain ⟨s3, hl3, hi3⟩ := ih w2
                refine ⟨[⟨.acquire, i, none⟩, ⟨.decode, i, none⟩, ⟨.close, i, none⟩] ++
                  (s1 ++ (s2 ++ s3)), ?_,
                  runInv_append (RunInv.loaded sel i)
                    (runInv_append hi1 (runInv_append (RunInv.of_writes sel none s2 hw2) hi3))⟩
                simp only [hl3, hl2, hl1, List.append_assoc]

/-! ## Claims on failures in `reduceSerializedParts` -/

/-- Claim C13. In any run of `reduceSerializedParts`, under any schedule of
failures, if a factory call, a decoding, a `Clear` or an encoding returns an
error, then the run returns that error, and every operation performed after the
failed one is a call of `Close`: no further factory is invoked, no part is
cleared or rewritten, and nothing more is written to the output. -/
theorem reduceSerializedParts_abort (fail : Nat → Option Error) (idxs : List Nat) (d : Disk)
    (t : Nat) (ev : Event) (e : Error)
    (ht : (reduceSerializedParts (idxs.map (Traced.readWriting fail)) (Traced.write fail)
      ⟨d, []⟩).2.log[t]? = some ev)
    (hop : ev.op = .acquire ∨ ev.op = .decode ∨ ev.op = .clear ∨ ev.op = .encode)
    (herr : ev.err = some e) :
    (reduceSerializedParts (idxs.map (Traced.readWriting fail)) (Traced.write fail)
        ⟨d, []⟩).1 = some e ∧
      ∀ t' ev', t < t' →
        (reduceSerializedParts (idxs.map (Traced.readWriting fail)) (Traced.write fail)
          ⟨d, []⟩).2.log[t']? = some ev' → ev'.op = .close := by
  obtain ⟨seg, hl, -, -, hc⟩ :=
    reduceSerializedParts_traced (fun _ => true) fail idxs ⟨d, []⟩
  rw [List.nil_append] at hl
  rw [hl] at ht ⊢
  have hab : ev.aborting := ⟨hop, by rw [herr]; simp⟩
  rcases hc with hclean | ⟨e', hres, pre, ev0, post, hseg, hpre, -, herr0, hpost⟩
  · exact absurd hab (hclean ev (List.getElem?_mem ht))
  · subst hseg
    rcases Nat.lt_trichotomy t pre.length with h | h | h
    · rw [List.getElem?_append_left h] at ht
      exact absurd hab (hpre ev (List.getElem?_mem ht))
    · subst h
      rw [List.getElem?_append_right (le_refl _), Nat.sub_self, List.getElem?_cons_zero,
        Option.some.injEq] at ht
      subst ht
      rw [herr0, Option.some.injEq] at herr
      subst herr
      refine ⟨hres, fun t' ev' ht' hev' => ?_⟩
      obtain ⟨m, rfl⟩ : ∃ m, t' = pre.length + (m + 1) := ⟨t' - pre.length - 1, by omega⟩
      rw [List.getElem?_append_right (by omega),
        show pre.length + (m + 1) - pre.length = m + 1 by omega,
        List.getElem?_cons_succ] at hev'
      exact hpost ev' (List.getElem?_mem hev')
    · obtain ⟨m, rfl⟩ : ∃ m, t = pre.length + (m + 1) := ⟨t - pre.length - 1, by omega⟩
      rw [List.getElem?_append_right (by omega),
        show pre.length + (m + 1) - pre.length = m + 1 by omega,
        List.getElem?_cons_succ] at ht
      have := hpost ev (List.getElem?_mem ht)
      rw [this] at hop
      simp at hop

theorem reduceSerializedParts_abort_witness :
    (reduceSerializedParts ([0, 1].map (Traced.readWriting (failAt 3 "open failed")))
        (Traced.write (failAt 3 "open failed"))
        ⟨Disk.ofParts [Part.ofList [("qA", 2), ("qB", 1)], Part.ofList [("qA", 1), ("qE", 1)]],
          []⟩).2.log[3]? = some ⟨.acquire, 1, some "open failed"⟩ ∧
      (reduceSerializedParts ([0, 1].map (Traced.readWriting (failAt 3 "open failed")))
        (Traced.write (failAt 3 "open failed"))
        ⟨Disk.ofParts [Part.ofList [("qA", 2), ("qB", 1)], Part.ofList [("qA", 1), ("qE", 1)]],
          []⟩).1 = some "open failed" ∧
      ∀ t' ev', 3 < t' →
        (reduceSerializedParts ([0, 1].map (Traced.readWriting (failAt 3 "open failed")))
          (Traced.write (failAt 3 "open failed"))
          ⟨Disk.ofParts [Part.ofList [("qA", 2), ("qB", 1)],
            Part.ofList [("qA", 1), ("qE", 1)]], []⟩).2.log[t']? = some ev' →
        ev'.op = .close :=
  ⟨by decide,
    reduceSerializedParts_abort (failAt 3 "open failed") [0, 1] _ 3
      ⟨.acquire, 1, some "open failed"⟩ "open failed" (by decide) (Or.inl rfl) rfl⟩

/-- Claim C16. At every instant of any run of `reduceSerializedParts`, for any
list of parts and under any schedule of failures, at most two handles are open
(obtained from a factory, with `Close` not yet called on them), and at most one
handle is open on each part. -/
theorem reduceSerializedParts_open_handles (fail : Nat → Option Error) (idxs : List Nat)
    (d : Disk) (k : Nat) :
    openHandles ((reduceSerializedParts (idxs.map (Traced.readWriting fail))
        (Traced.write fail) ⟨d, []⟩).2.log.take k) ≤ 2 ∧
      ∀ n, openHandlesOf n ((reduceSerializedParts (idxs.map (Traced.readWriting fail))
        (Traced.write fail) ⟨d, []⟩).2.log.take k) ≤ 1 := by
  constructor
  · obtain ⟨seg, hl, hb, -, -⟩ :=
      reduceSerializedParts_traced (fun _ => true) fail idxs ⟨d, []⟩
    rw [List.nil_append] at hl
    rw [hl]
    have := (hb k).2
    unfold openHandles
    omega
  · intro n
    obtain ⟨seg, hl, hb, -, -⟩ :=
      reduceSerializedParts_traced (fun m => m == n) fail idxs ⟨d, []⟩
    rw [List.nil_append] at hl
    rw [hl]
    exact (hb k).2

/-- Claim C14 fails on the code. Two runs that return an error with a handle
still open: decoding the accumulator part fails (lines 75-78), and `Clear` on a
folded part fails (lines 100-103).  In both the last operation is the failed
one, with no call of `Close` on the handle obtained just before. -/
theorem reduceSerializedParts_leaks_handle :
    (reduceSerializedParts ([0, 1].map (Traced.readWriting (failAt 1 "bad gob")))
        (Traced.write (failAt 1 "bad gob"))
        ⟨Disk.ofParts [Part.ofList [("qA", 2), ("qB", 1)], Part.ofList [("qA", 1), ("qE", 1)]],
          []⟩).1 = some "bad gob" ∧
      (reduceSerializedParts ([0, 1].map (Traced.readWriting (failAt 1 "bad gob")))
        (Traced.write (failAt 1 "bad gob"))
        ⟨Disk.ofParts [Part.ofList [("qA", 2), ("qB", 1)], Part.ofList [("qA", 1), ("qE", 1)]],
          []⟩).2.log = [⟨.acquire, 0, none⟩, ⟨.decode, 0, some "bad gob"⟩] ∧
      openHandles (reduceSerializedParts ([0, 1].map (Traced.readWriting (failAt 1 "bad gob")))
        (Traced.write (failAt 1 "bad gob"))
        ⟨Disk.ofParts [Part.ofList [("qA", 2), ("qB", 1)], Part.ofList [("qA", 1), ("qE", 1)]],
          []⟩).2.log = 1 ∧
      (reduceSerializedParts ([0, 1].map (Traced.readWriting (failAt 5 "clear failed")))
        (Traced.write (failAt 5 "clear failed"))
        ⟨Disk.ofParts [Part.ofList [("qA", 2), ("qB", 1)], Part.ofList [("qA", 1), ("qE", 1)]],
          []⟩).1 = some "clear failed" ∧
      (reduceSerializedParts ([0, 1].map (Traced.readWriting (failAt 5 "clear failed")))
        (Traced.write (failAt 5 "clear failed"))
        ⟨Disk.ofParts [Part.ofList [("qA", 2), ("qB", 1)], Part.ofList [("qA", 1), ("qE", 1)]],
          []⟩).2.log =
        [⟨.acquire, 0, none⟩, ⟨.decode, 0, none⟩, ⟨.close, 0, none⟩, ⟨.acquire, 1, none⟩,
          ⟨.decode, 1, none⟩, ⟨.clear, 1, some "clear failed"⟩] ∧
      openHandlesOf 1
        (reduceSerializedParts ([0, 1].map (Traced.readWriting (failAt 5 "clear failed")))
          (Traced.write (failAt 5 "clear failed"))
          ⟨Disk.ofParts [Part.ofList [("qA", 2), ("qB", 1)],
            Part.ofList [("qA", 1), ("qE", 1)]], []⟩).2.log = 1 := by
  decide

/-- Claim C15 fails on the code. `Close` on the handle of the folded part fails
(line 105): the run goes on, writes the whole report and returns no error, whereas
a failing `Close` on the handle of the accumulator part (lines 79-82) aborts the
run with that error. -/
theorem reduceSerializedParts_ignores_close_error :
    (reduceSerializedParts ([0, 1].map (Traced.readWriting (failAt 7 "close failed")))
        (Traced.write (failAt 7 "close failed"))
        ⟨Disk.ofParts [Part.ofList [("qA", 2), ("qB", 1)], Part.ofList [("qA", 1), ("qE", 1)]],
          []⟩).2.log[7]? = some ⟨.close, 1, some "close failed"⟩ ∧
      (reduceSerializedParts ([0, 1].map (Traced.readWriting (failAt 7 "close failed")))
        (Traced.write (failAt 7 "close failed"))
        ⟨Disk.ofParts [Part.ofList [("qA", 2), ("qB", 1)], Part.ofList [("qA", 1), ("qE", 1)]],
          []⟩).1 = none ∧
      (reduceSerializedParts ([0, 1].map (Traced.readWriting (failAt 7 "close failed")))
        (Traced.write (failAt 7 "close failed"))
        ⟨Disk.ofParts [Part.ofList [("qA", 2), ("qB", 1)], Part.ofList [("qA", 1), ("qE", 1)]],
          []⟩).2.disk.out = ["qA\t3\n", "qB\t1\n", "qE\t1\n"] ∧
      (reduceSerializedParts ([0, 1].map (Traced.readWriting (failAt 2 "close failed")))
        (Traced.write (failAt 2 "close failed"))
        ⟨Disk.ofParts [Part.ofList [("qA", 2), ("qB", 1)], Part.ofList [("qA", 1), ("qE", 1)]],
          []⟩).2.log[2]? = some ⟨.close, 0, some "close failed"⟩ ∧
      (reduceSerializedParts ([0, 1].map (Traced.readWriting (failAt 2 "close failed")))
        (Traced.write (failAt 2 "close failed"))
        ⟨Disk.ofParts [Part.ofList [("qA", 2), ("qB", 1)], Part.ofList [("qA", 1), ("qE", 1)]],
          []⟩).1 = some "close failed" := by
  decide

theorem dataToParts_count_calls_witness :
    (1 ≤ 1 ∧ 1 ≤ (dataToParts ⟨["qA", "qB"], none⟩ 1 recordSave []).2.length) ∧
      (dataToParts ⟨["qA", "qB"], none⟩ 1 (failingSave 1 "disk full") ⟨[], []⟩).1.2 =
        some "disk full" ∧
      (dataToParts ⟨["qA", "qB"], none⟩ 1 (failingSave 1 "disk full") ⟨[], []⟩).2.saved.length
          + 1 =
        (dataToParts ⟨["qA", "qB"], none⟩ 1 (failingSave 1 "disk full") ⟨[], []⟩).1.1 :=
  ⟨by decide,
    (dataToParts_count_calls ⟨["qA", "qB"], none⟩ 1 1 "disk full").2.1 (by decide)⟩

/-! ## Lemmas on 64-bit arithmetic -/

theorem wrapInt_of_inInt64 {x : Int} (h : inInt64 x) : wrapInt x = x := by
  unfold wrapInt
  obtain ⟨h1, h2⟩ := h
  omega

theorem inInt64_wrapInt (x : Int) : inInt64 (wrapInt x) := by
  unfold wrapInt
  constructor <;> omega

theorem wrapInt_wrapInt_add (x y : Int) : wrapInt (wrapInt x + y) = wrapInt (x + y) := by
  unfold wrapInt
  omega

theorem wrapInt_wrapInt (x : Int) : wrapInt (wrapInt x) = wrapInt x :=
  wrapInt_of_inInt64 (inInt64_wrapInt x)

theorem foldSum64_eq (a : Int) (bs : List Int) (ha : inInt64 a) :
    foldSum64 a bs = wrapInt (a + bs.sum) := by
  induction bs generalizing a with
  | nil => simp [foldSum64, wrapInt_of_inInt64 ha]
  | cons b bs ih =>
    have := ih (wrapInt (a + b)) (inInt64_wrapInt _)
    simp only [foldSum64, List.foldl_cons, List.sum_cons] at this ⊢
    rw [this, wrapInt_wrapInt_add, add_assoc]

theorem Part.lookup_add64 (m : Part) (k : String) (d : Int) (r : String) :
    (m.add64 k d).lookup r = if r = k then some (wrapInt (m.get k + d)) else m.lookup r := by
  unfold Part.add64
  split_ifs with h
  · subst h; exact AList.lookup_insert m
  · exact AList.lookup_insert_ne h

theorem Part.get_add64 (m : Part) (k : String) (d : Int) (r : String) :
    (m.add64 k d).get r = if r = k then wrapInt (m.get k + d) else m.get r := by
  unfold Part.get
  rw [Part.lookup_add64]
  split_ifs <;> simp [Part.get]

/-! ## `reduceSerializedParts64` on faithful storage -/

theorem reduceSerializedParts.absorb64_lookup_fst (ks : List String) (acc q : Part)
    (r : String) :
    (reduceSerializedParts.absorb64 ks acc q).1.lookup r =
      if r ∈ ks then some (wrapInt (acc.get r + q.get r)) else acc.lookup r := by
  induction ks generalizing acc q with
  | nil => simp [reduceSerializedParts.absorb64]
  | cons k ks ih =>
    simp only [reduceSerializedParts.absorb64, ih, List.mem_cons, Part.get_add64,
      Part.get_delete, Part.lookup_add64]
    by_cases h1 : r = k
    · subst h1
      by_cases h2 : r ∈ ks <;> simp [h2, wrapInt_wrapInt]
    · by_cases h2 : r ∈ ks <;> simp [h1, h2]

theorem reduceSerializedParts.absorb64_lookup_snd (ks : List String) (acc q : Part)
    (r : String) :
    (reduceSerializedParts.absorb64 ks acc q).2.lookup r =
      if r ∈ ks then none else q.lookup r := by
  induction ks generalizing acc q with
  | nil => simp [reduceSerializedParts.absorb64]
  | cons k ks ih =>
    simp only [reduceSerializedParts.absorb64, ih, List.mem_cons, Part.lookup_delete]
    by_cases h1 : r = k
    · subst h1
      by_cases h2 : r ∈ ks <;> simp [h2]
    · by_cases h2 : r ∈ ks <;> simp [h1, h2]

theorem reduceSerializedParts.foldPart64_disk (o : Nat) (acc q : Part) (w : Disk)
    (h : w.files o = some q) :
    reduceSerializedParts.foldPart64 (Disk.readWriting o) acc w =
      (.ok (reduceSerializedParts.absorb64 acc.keys acc q).1,
        ⟨Function.update w.files o (some (reduceSerializedParts.absorb64 acc.keys acc q).2),
          w.out⟩) := by
  simp [reduceSerializedParts.foldPart64, Disk.readWriting, deserializeMap, serializeMap,
    Disk.handle, h]

theorem reduceSerializedParts.absorb64_mem (acc q : Part) (r : String) :
    r ∈ (reduceSerializedParts.absorb64 acc.keys acc q).1 ↔ r ∈ acc := by
  rw [Part.mem_iff_lookup_isSome, reduceSerializedParts.absorb64_lookup_fst]
  by_cases h : r ∈ acc
  · simp [AList.mem_keys.1 h, h]
  · have h' : r ∉ acc.keys := fun hk => h (AList.mem_keys.2 hk)
    simp [h', h, AList.lookup_eq_none.2 h]

theorem reduceSerializedParts.absorb64_get (acc q : Part) (r : String) (h : r ∈ acc) :
    (reduceSerializedParts.absorb64 acc.keys acc q).1.get r = wrapInt (acc.get r + q.get r) := by
  have h' : r ∈ acc.keys := AList.mem_keys.1 h
  rw [Part.get, reduceSerializedParts.absorb64_lookup_fst, if_pos h']
  rfl

theorem reduceSerializedParts.inner64_disk (os : List Nat) (hnd : os.Nodup) (acc : Part)
    (w : Disk) (hf : ∀ o ∈ os, (w.files o).isSome) :
    ∃ acc' w', reduceSerializedParts.inner64 (os.map Disk.readWriting) acc w = (.ok acc', w') ∧
      w'.out = w.out ∧
      (∀ j, j ∉ os → w'.files j = w.files j) ∧
      (∀ o ∈ os, (w'.files o).isSome) ∧
      (∀ o ∈ os, ∀ r, w'.lookup o r = if r ∈ acc then none else w.lookup o r) ∧
      (∀ r, acc'.lookup r =
        if r ∈ acc then some (foldSum64 (acc.get r) (os.map fun o => (w.lookup o r).getD 0))
        else none) := by
  induction os generalizing acc w with
  | nil =>
    refine ⟨acc, w, by simp [reduceSerializedParts.inner64], rfl, fun _ _ => rfl, by simp,
      by simp, fun r => ?_⟩
    simpa [foldSum64] using Part.lookup_self acc r
  | cons o os ih =>
    rw [List.nodup_cons] at hnd
    obtain ⟨q, hq⟩ := Option.isSome_iff_exists.1 (hf o (List.mem_cons_self _ _))
    have hne : ∀ o' ∈ os, o' ≠ o := fun o' ho' h => hnd.1 (h ▸ ho')
    obtain ⟨acc', w', hrun, hout, hframe, hsome, hlook, hacc⟩ :=
      ih hnd.2 (reduceSerializedParts.absorb64 acc.keys acc q).1
        ⟨Function.update w.files o (some (reduceSerializedParts.absorb64 acc.keys acc q).2),
          w.out⟩
        (fun o' ho' => by
          simp only [Function.update_noteq (hne o' ho')]
          exact hf o' (List.mem_cons_of_mem _ ho'))
    refine ⟨acc', w', ?_, hout, ?_, ?_, ?_, ?_⟩
    · simp only [List.map_cons, reduceSerializedParts.inner64,
        reduceSerializedParts.foldPart64_disk o acc q w hq]
      exact hrun
    · intro j hj
      rw [List.mem_cons, not_or] at hj
      rw [hframe j hj.2]
      exact Function.update_noteq hj.1 _ _
    · intro o' ho'
      rcases List.mem_cons.1 ho' with h | h
      · subst h
        rw [hframe _ hnd.1]
        simp
      · exact hsome o' h
    · intro o' ho' r
      rcases List.mem_cons.1 ho' with h | h
      · subst h
        simp only [Disk.lookup, hframe _ hnd.1, Function.update_same, Option.some_bind, hq,
          reduceSerializedParts.absorb64_lookup_snd, AList.mem_keys]
      · rw [hlook o' h r]
        by_cases hr : r ∈ acc
        · rw [if_pos hr, if_pos ((reduceSerializedParts.absorb64_mem acc q r).2 hr)]
        · rw [if_neg hr,
            if_neg (fun h' => hr ((reduceSerializedParts.absorb64_mem acc q r).1 h'))]
          simp only [Disk.lookup, Function.update_noteq (hne o' h)]
    · intro r
      rw [hacc r]
      by_cases hr : r ∈ acc
      · rw [if_pos hr, if_pos ((reduceSerializedParts.absorb64_mem acc q r).2 hr),
          reduceSerializedParts.absorb64_get acc q r hr, List.map_cons]
        have h1 : (w.lookup o r).getD 0 = q.get r := by
          simp [Disk.lookup, hq, Part.get]
        have h2 : (os.map fun o' => ((Disk.mk (Function.update w.files o
            (some (reduceSerializedParts.absorb64 acc.keys acc q).2)) w.out).lookup o' r).getD
              0) =
            os.map fun o' => (w.lookup o' r).getD 0 := by
          apply List.map_congr_left
          intro o' ho'
          simp only [Disk.lookup, Function.update_noteq (hne o' ho')]
        rw [h1, h2]
        rfl
      · rw [if_neg hr,
          if_neg (fun h' => hr ((reduceSerializedParts.absorb64_mem acc q r).1 h'))]

/-- The run of `reduceSerializedParts64` over pairwise distinct part files of a
faithful disk that hold 64-bit counts: it succeeds, and the lines it appends are
those of a list of entries with pairwise distinct keys, whose keys are the records
of the part files and whose counts are the sums over the part files, wrapped to
64 bits. -/
theorem reduceSerializedParts64_disk (idxs : List Nat) (hnd : idxs.Nodup) (w : Disk)
    (hf : ∀ i ∈ idxs, (w.files i).isSome)
    (hrange : ∀ i ∈ idxs, ∀ r, inInt64 ((w.lookup i r).getD 0)) :
    ∃ (report : List (Sigma fun _ : String => Int)) (w' : Disk),
      reduceSerializedParts64 (idxs.map Disk.readWriting) Disk.write w = (none, w') ∧
      w'.out = w.out ++ report.map (fun e => tabLine e.1 e.2) ∧
      report.NodupKeys ∧
      (∀ r, r ∈ report.keys ↔ ∃ i ∈ idxs, (w.lookup i r).isSome) ∧
      (∀ r, (report.dlookup r).getD 0 =
        wrapInt (idxs.map fun i => (w.lookup i r).getD 0).sum) := by
  induction idxs generalizing w with
  | nil =>
    refine ⟨[], w, by simp [reduceSerializedParts64], by simp, List.nodupKeys_nil, by simp,
      fun r => ?_⟩
    simp [wrapInt]
  | cons i rest ih =>
    rw [List.nodup_cons] at hnd
    obtain ⟨p, hp⟩ := Option.isSome_iff_exists.1 (hf i (List.mem_cons_self _ _))
    obtain ⟨acc', w1, hrun, hout, -, hsome, hlook, hacc⟩ :=
      reduceSerializedParts.inner64_disk rest hnd.2 p w
        (fun o ho => hf o (List.mem_cons_of_mem _ ho))
    have hlook2 : ∀ o ∈ rest, ∀ r,
        (Disk.mk w1.files (w1.out ++ acc'.entries.map fun e => tabLine e.1 e.2)).lookup o r =
          if r ∈ p then none else w.lookup o r := fun o ho r => hlook o ho r
    have hrange2 : ∀ o ∈ rest, ∀ r, inInt64
        (((Disk.mk w1.files (w1.out ++ acc'.entries.map fun e => tabLine e.1 e.2)).lookup o
          r).getD 0) := by
      intro o ho r
      rw [hlook2 o ho r]
      by_cases hr : r ∈ p
      · rw [if_pos hr]
        exact ⟨by decide, by decide⟩
      · rw [if_neg hr]
        exact hrange o (List.mem_cons_of_mem _ ho) r
    obtain ⟨report', w', hrun', hout', hnd', hkeys', hval'⟩ :=
      ih hnd.2 ⟨w1.files, w1.out ++ acc'.entries.map fun e => tabLine e.1 e.2⟩ hsome hrange2
    have hmem : ∀ r, r ∈ acc'.entries.keys ↔ r ∈ p := by
      intro r
      rw [← AList.keys, ← AList.mem_keys, Part.mem_iff_lookup_isSome, hacc r]
      by_cases hr : r ∈ p <;> simp [hr]
    have hrest : ∀ r, r ∈ report'.keys ↔ r ∉ p ∧ ∃ o ∈ rest, (w.lookup o r).isSome := by
      intro r
      rw [hkeys' r]
      constructor
      · rintro ⟨o, ho, h⟩
        rw [hlook2 o ho r] at h
        by_cases hr : r ∈ p
        · simp [hr] at h
        · rw [if_neg hr] at h
          exact ⟨hr, o, ho, h⟩
      · rintro ⟨hr, o, ho, h⟩
        refine ⟨o, ho, ?_⟩
        rw [hlook2 o ho r, if_neg hr]
        exact h
    have hpr : ∀ r, inInt64 (p.get r) := by
      intro r
      have := hrange i (List.mem_cons_self _ _) r
      rwa [Disk.lookup_getD_of_file hp] at this
    refine ⟨acc'.entries ++ report', w', ?_, ?_, ?_, ?_, ?_⟩
    · simp only [List.map_cons, reduceSerializedParts64, Disk.readWriting, deserializeMap,
        Disk.handle, hp, hrun, writeMapTabDelim, writeMapTabDelim.loop_disk]
      exact hrun'
    · rw [hout']
      simp [hout, List.append_assoc]
    · unfold List.NodupKeys
      rw [List.keys, List.map_append, List.nodup_append]
      refine ⟨acc'.nodupKeys, hnd', ?_⟩
      intro r h1 h2
      exact ((hrest r).1 h2).1 ((hmem r).1 h1)
    · intro r
      rw [List.keys, List.map_append, List.mem_append]
      change r ∈ acc'.entries.keys ∨ r ∈ report'.keys ↔ _
      rw [hmem, hrest]
      simp only [List.mem_cons, exists_eq_or_imp, Disk.lookup_isSome_of_file hp]
      tauto
    · intro r
      rw [List.dlookup_append, List.map_cons, List.sum_cons, Disk.lookup_getD_of_file hp]
      change ((acc'.lookup r).or (report'.dlookup r)).getD 0 = _
      rw [hacc r]
      by_cases hr : r ∈ p
      · rw [if_pos hr, foldSum64_eq _ _ (hpr r)]
        simp
      · rw [if_neg hr, Option.none_or, hval' r, Part.get_of_not_mem hr, zero_add]
        congr 2
        apply List.map_congr_left
        intro o ho
        rw [hlook2 o ho r, if_neg hr]

theorem Part.inInt64_get (p : Part) (h : ∀ e ∈ p.entries, inInt64 e.2) (r : String) :
    inInt64 (p.get r) := by
  by_cases hr : r ∈ p
  · have hl := Part.lookup_of_mem hr
    exact h ⟨r, p.get r⟩ (AList.mem_lookup_iff.1 hl)
  · rw [Part.get_of_not_mem hr]
    exact ⟨by decide, by decide⟩

theorem reduceSerializedParts64_ofParts (parts : List Part)
    (hrange : ∀ p ∈ parts, ∀ e ∈ p.entries, inInt64 e.2) :
    ∃ (report : Part) (w' : Disk),
      reduceSerializedParts64 (Disk.factories parts.length) Disk.write (Disk.ofParts parts) =
        (none, w') ∧
      w'.out = report.entries.map (fun e => tabLine e.1 e.2) ∧
      (∀ r, r ∈ report ↔ ∃ p ∈ parts, r ∈ p) ∧
      (∀ r, report.get r = wrapInt (parts.map fun p => p.get r).sum) := by
  have hfile : ∀ j, j < parts.length → (Disk.ofParts parts).files (id j) = parts[j]? :=
    fun j _ => rfl
  have hnd : ((List.range parts.length).map id).Nodup := by
    rw [List.map_id]; exact List.nodup_range _
  have hr : ∀ i ∈ (List.range parts.length).map id, ∀ r,
      inInt64 (((Disk.ofParts parts).lookup i r).getD 0) := by
    intro i hi r
    rw [List.map_id, List.mem_range] at hi
    have hfi : (Disk.ofParts parts).files i = some parts[i] := by
      rw [← List.getElem?_eq_getElem hi]; rfl
    rw [Disk.lookup_getD_of_file hfi]
    exact Part.inInt64_get _ (hrange _ (List.getElem_mem _)) r
  obtain ⟨report, w', hrun, hout, hndk, hkeys, hval⟩ :=
    reduceSerializedParts64_disk _ hnd (Disk.ofParts parts)
      (Disk.files_isSome (Disk.ofParts parts) parts id hfile) hr
  refine ⟨⟨report, hndk⟩, w', ?_, ?_, fun r => ?_, fun r => ?_⟩
  · rw [List.map_id] at hrun
    exact hrun
  · simpa [Disk.ofParts] using hout
  · rw [AList.mem_keys]
    exact (hkeys r).trans (Disk.exists_lookup_iff (Disk.ofParts parts) parts id hfile r)
  · exact (hval r).trans
      (congrArg (fun l => wrapInt (List.sum l))
        (Disk.map_lookup_eq (Disk.ofParts parts) parts id hfile r))

/-! ## The reported sums in 64-bit arithmetic -/

/-- Claim C1 as stated fails. The parts `{qA: 9223372036854775807}` and `{qA: 1}`
are reduced without error to the single line `qA`, tab, `-9223372036854775808`:
the addition of line 95 wraps, while the sum of the counts of `qA` over the parts
is `9223372036854775808`. -/
theorem reduceSerializedParts64_overflow :
    (reduceSerializedParts64 (Disk.factories 2) Disk.write
        (Disk.ofParts [Part.ofList [("qA", 9223372036854775807)],
          Part.ofList [("qA", 1)]])).1 = none ∧
      (reduceSerializedParts64 (Disk.factories 2) Disk.write
        (Disk.ofParts [Part.ofList [("qA", 9223372036854775807)],
          Part.ofList [("qA", 1)]])).2.out = ["qA\t-9223372036854775808\n"] ∧
      ([Part.ofList [("qA", 9223372036854775807)], Part.ofList [("qA", 1)]].map
        fun p => p.get "qA").sum = 9223372036854775808 ∧
      tabLine "qA" 9223372036854775808 ≠ "qA\t-9223372036854775808\n" := by
  decide

/-- Claim C1, amended. For every list of parts with 64-bit counts held in
faithful storage, `reduceSerializedParts` succeeds, and the report it writes
consists of the lines of a map from record to count whose records are exactly the
records occurring in some part and whose count for each record is the sum of the
record's counts over all parts in wrapping 64-bit arithmetic: the sum itself
whenever the sum is a 64-bit value. -/
theorem reduceSerializedParts64_sums (parts : List Part)
    (hrange : ∀ p ∈ parts, ∀ e ∈ p.entries, inInt64 e.2) :
    ∃ (report : Part) (w' : Disk),
      reduceSerializedParts64 (Disk.factories parts.length) Disk.write (Disk.ofParts parts) =
        (none, w') ∧
      w'.out = report.entries.map (fun e => tabLine e.1 e.2) ∧
      (∀ r, r ∈ report ↔ ∃ p ∈ parts, r ∈ p) ∧
      (∀ r, report.get r = wrapInt (parts.map fun p => p.get r).sum) ∧
      (∀ r, inInt64 (parts.map fun p => p.get r).sum →
        report.get r = (parts.map fun p => p.get r).sum) := by
  obtain ⟨report, w', hrun, hout, hmem, hget⟩ := reduceSerializedParts64_ofParts parts hrange
  exact ⟨report, w', hrun, hout, hmem, hget,
    fun r hr => (hget r).trans (wrapInt_of_inInt64 hr)⟩

theorem reduceSerializedParts64_sums_witness :
    (∀ p ∈ [Part.ofList [("qA", 2), ("qB", 1), ("qC", 1), ("qD", 1)],
        Part.ofList [("qA", 1), ("qE", 1)], Part.ofList [("qC", 4)]],
      ∀ e ∈ p.entries, inInt64 e.2) ∧
      ∃ (report : Part) (w' : Disk),
        reduceSerializedParts64 (Disk.factories 3) Disk.write
            (Disk.ofParts [Part.ofList [("qA", 2), ("qB", 1), ("qC", 1), ("qD", 1)],
              Part.ofList [("qA", 1), ("qE", 1)], Part.ofList [("qC", 4)]]) = (none, w') ∧
          w'.out = report.entries.map (fun e => tabLine e.1 e.2) ∧
          (∀ r, r ∈ report ↔
            ∃ p ∈ [Part.ofList [("qA", 2), ("qB", 1), ("qC", 1), ("qD", 1)],
              Part.ofList [("qA", 1), ("qE", 1)], Part.ofList [("qC", 4)]], r ∈ p) ∧
          (∀ r, report.get r =
            wrapInt ([Part.ofList [("qA", 2), ("qB", 1), ("qC", 1), ("qD", 1)],
              Part.ofList [("qA", 1), ("qE", 1)], Part.ofList [("qC", 4)]].map
                fun p => p.get r).sum) ∧
          (∀ r,
            inInt64 ([Part.ofList [("qA", 2), ("qB", 1), ("qC", 1), ("qD", 1)],
              Part.ofList [("qA", 1), ("qE", 1)], Part.ofList [("qC", 4)]].map
                fun p => p.get r).sum →
            report.get r =
              ([Part.ofList [("qA", 2), ("qB", 1), ("qC", 1), ("qD", 1)],
                Part.ofList [("qA", 1), ("qE", 1)], Part.ofList [("qC", 4)]].map
                  fun p => p.get r).sum) :=
  ⟨by decide,
    reduceSerializedParts64_sums
      [Part.ofList [("qA", 2), ("qB", 1), ("qC", 1), ("qD", 1)],
        Part.ofList [("qA", 1), ("qE", 1)], Part.ofList [("qC", 4)]] (by decide)⟩

end CountQueries
